import Mathlib

/-!
Verification development for the Amharic Fidel BPE tokenizer
(`amharic_tokenizer/tokenizer.py`).  Python strings are embedded as
`List Char`, Python dicts / `collections.Counter` as insertion-ordered
association lists, and the tokenizer aggregate as a structure.  The static
decomposition table `AMHARIC_FIDEL_MAP` / `REVERSE_FIDEL_MAP` is data that
the tokenizer module imports; every definition below is parameterised by
that table (`fm` for the forward map, `rfm` for the reverse map).
-/

/-- Tokens are Python strings, embedded as lists of characters. -/
abbrev Tok := List Char

/-- The end-of-word marker string `"<eow>"`. -/
def eowStr : Tok := ['<', 'e', 'o', 'w', '>']

/-- The end-of-word marker used as a token. -/
def eowTok : Tok := eowStr

/-- The unknown-token marker string `"<unk>"` used by `decode`. -/
def unkTok : Tok := ['<', 'u', 'n', 'k', '>']

/-- Lookup in an insertion-ordered association list (Python `dict.get`). -/
def dictGet? {α β : Type} [DecidableEq α] : List (α × β) → α → Option β
  | [], _ => none
  | (k, v) :: t, a => if k = a then some v else dictGet? t a

/-- Python `d[k] = v`: replace the value at an existing key in place, or
append a new binding at the end (dicts preserve insertion order). -/
def dictInsert {α β : Type} [DecidableEq α] (k : α) (v : β) :
    List (α × β) → List (α × β)
  | [] => [(k, v)]
  | (k', v') :: t => if k' = k then (k, v) :: t else (k', v') :: dictInsert k v t

/-- Python `Counter` update step `self[k] = self.get(k, 0) + v`: bump the
count at an existing key in place, or append the key with count `v`. -/
def counterAdd {α : Type} [DecidableEq α] : List (α × Int) → α → Int → List (α × Int)
  | [], k, v => [(k, v)]
  | (k', v') :: t, k, v =>
    if k' = k then (k', v' + v) :: t else (k', v') :: counterAdd t k v

/-- Python `Counter.update(other)`: add the counts of `other` into `self`,
iterating `other` in its insertion order. -/
def counterUpdate {α : Type} [DecidableEq α] (self other : List (α × Int)) :
    List (α × Int) :=
  other.foldl (fun s kv => counterAdd s kv.1 kv.2) self

/-- Python `Counter.subtract(other)`: subtract the counts of `other` from
`self`, keeping keys whose count drops to zero (as `Counter.subtract` does). -/
def counterSubtract {α : Type} [DecidableEq α] (self other : List (α × Int)) :
    List (α × Int) :=
  other.foldl (fun s kv => counterAdd s kv.1 (-kv.2)) self

/-- Python `max(counter, key=counter.get)` together with the count of the
returned key: iterate in insertion order keeping the first key whose count is
maximal (later keys replace the current best only when strictly greater). -/
def pyMax? {α : Type} : List (α × Int) → Option (α × Int)
  | [] => none
  | x :: xs => some (xs.foldl (fun b y => if y.2 > b.2 then y else b) x)

/-- Adjacent pairs of a token list: `zip(tokens[:-1], tokens[1:])`. -/
def wordPairs (w : List Tok) : List (Tok × Tok) := w.zip w.tail

/-- Build a `Counter` from a list of items, counting in first-occurrence
order (`__get_pairs`). -/
def getPairs (w : List Tok) : List ((Tok × Tok) × Int) :=
  (wordPairs w).foldl (fun c p => counterAdd c p 1) []

/-- Python `pat in s` for strings: substring test. -/
def containsSub (pat : List Char) : List Char → Bool
  | [] => pat.isEmpty
  | c :: cs => pat.isPrefixOf (c :: cs) || containsSub pat cs

/-- Lexicographic strict comparison of strings by code point, as Python
string `<` behaves on the sorted() call in the vocabulary bootstrap. -/
def lexLt : List Char → List Char → Bool
  | [], [] => false
  | [], _ :: _ => true
  | _ :: _, [] => false
  | a :: as, b :: bs => if a < b then true else if b < a then false else lexLt as bs

/-- Insert into a list sorted by `lexLt` (helper for `insSort`). -/
def insLe (x : Tok) : List Tok → List Tok
  | [] => [x]
  | y :: ys => if lexLt x y then x :: y :: ys else y :: insLe x ys

/-- Insertion sort by `lexLt`, modelling Python `sorted`. -/
def insSort : List Tok → List Tok
  | [] => []
  | x :: xs => insLe x (insSort xs)

/-- First-occurrence deduplication, modelling the `set()` built in the
vocabulary bootstrap (the subsequent sort makes the set's order irrelevant). -/
def dedupChars : List Char → List Char :=
  List.foldl (fun acc c => if c ∈ acc then acc else acc ++ [c]) []

/-- The tokenizer aggregate: the four maps plus the merge budget and the
next-ID counter (`AmharicTokenizer.__init__`). -/
structure AmharicTokenizer where
  vocabulary : List (Tok × Int)
  merge_rank_map : List (Tok × Nat)
  num_merges : Nat
  token_to_id : List (Tok × Int)
  id_to_token : List (Int × Tok)
  next_id : Int
deriving DecidableEq

/-- `__add_to_vocab_maps`: register a token under a fresh ID if it is not
already known; otherwise do nothing. -/
def addToVocabMaps (tok : AmharicTokenizer) (t : Tok) : AmharicTokenizer :=
  if dictGet? tok.token_to_id t = none then
    { tok with
      token_to_id := dictInsert t tok.next_id tok.token_to_id
      id_to_token := dictInsert tok.next_id t tok.id_to_token
      next_id := tok.next_id + 1 }
  else tok

/-- All characters appearing in the decomposition table's value strings. -/
def unitChars (fm : List (Char × List Char)) : List Char :=
  (fm.map Prod.snd).flatten

/-- The sorted bootstrap token list: every distinct base unit from the
table's values plus the end-of-word marker (`__initialize_base_vocabulary`). -/
def bootstrapToks (fm : List (Char × List Char)) : List Tok :=
  insSort (((dedupChars (unitChars fm)).map (fun u => [u])) ++ [eowTok])

/-- Construct a tokenizer (`__init__` followed by the base-vocabulary
bootstrap), parameterised by the decomposition table. -/
def AmharicTokenizer.init (fm : List (Char × List Char)) (num_merges : Nat) :
    AmharicTokenizer :=
  (bootstrapToks fm).foldl
    (fun tok t =>
      addToVocabMaps { tok with vocabulary := dictInsert t 0 tok.vocabulary } t)
    { vocabulary := [], merge_rank_map := [], num_merges := num_merges,
      token_to_id := [], id_to_token := [], next_id := 0 }

/-- Worker of `splitWs`: `cur` is the reversed word being accumulated.
Whitespace flushes the current word (empty words are discarded, as Python
`str.split()` does); the end of the input flushes the last word. -/
def splitWsAux (cur : List Char) : List Char → List (List Char)
  | [] => if cur = [] then [] else [cur.reverse]
  | c :: cs =>
    if c.isWhitespace then
      if cur = [] then splitWsAux [] cs else cur.reverse :: splitWsAux [] cs
    else splitWsAux (c :: cur) cs

/-- Python `str.split()`: split on whitespace, discarding empty segments. -/
def splitWs (s : List Char) : List (List Char) := splitWsAux [] s

/-- Decompose one word into base-unit tokens followed by the end-of-word
marker: each character is looked up in the table (its value string is spread
into one single-character token per unit), falling back to the literal
character (`preprocess`, inner loop). -/
def preprocessWord (fm : List (Char × List Char)) (w : List Char) : List Tok :=
  (w.flatMap fun c =>
    match dictGet? fm c with
    | some us => us.map (fun u => [u])
    | none => [[c]]) ++ [eowTok]

/-- `preprocess`: split the corpus on whitespace and decompose each word. -/
def preprocess (fm : List (Char × List Char)) (text : List Char) :
    List (List Tok) :=
  (splitWs text).map (preprocessWord fm)

/-- Apply one learned merge to a single word, replacing every non-overlapping
left-to-right adjacent occurrence of the pair by its concatenation (the inner
rewrite loop shared by `train` and `tokenize`). -/
def applyMergeAux (bp : Tok × Tok) : Option Tok → List Tok → List Tok
  | none, [] => []
  | some t1, [] => [t1]
  | none, t :: rest => applyMergeAux bp (some t) rest
  | some t1, t2 :: rest =>
    if t1 = bp.1 ∧ t2 = bp.2 then (bp.1 ++ bp.2) :: applyMergeAux bp none rest
    else t1 :: applyMergeAux bp (some t2) rest

/-- Apply one learned merge to a single word (entry point of the carry-based
scan above, starting with the cursor before the first token). -/
def applyMergeWord (bp : Tok × Tok) (w : List Tok) : List Tok :=
  applyMergeAux bp none w

/-- The token list a carry contributes ahead of the unread input. -/
def carryToks : Option Tok → List Tok
  | none => []
  | some t => [t]

/-- State threaded through the training loop: the tokenizer aggregate, the
tokenised corpus, and the adjacent-pair counts. -/
structure TrainSt where
  tok : AmharicTokenizer
  words : List (List Tok)
  counts : List ((Tok × Tok) × Int)
deriving DecidableEq

/-- One pass of the corpus rewrite in `train`: words whose concatenation
contains the new token as a substring are rewritten and their old pair counts
replaced by the new ones; other words are left untouched. -/
def rescan (newTok : Tok) (bp : Tok × Tok) :
    List (List Tok) → List ((Tok × Tok) × Int) →
    List (List Tok) × List ((Tok × Tok) × Int)
  | [], cs => ([], cs)
  | w :: ws, cs =>
    if containsSub newTok w.flatten then
      let old := getPairs w
      let nw := applyMergeWord bp w
      let cs' := counterUpdate (counterSubtract cs old) (getPairs nw)
      let r := rescan newTok bp ws cs'
      (nw :: r.1, r.2)
    else
      let r := rescan newTok bp ws cs
      (w :: r.1, r.2)

/-- One iteration of the training loop: `none` when a stop condition fires
(`if not pair_counts: break` or best-pair frequency below 2), otherwise the
selected pair together with the updated state. -/
def trainStep (st : TrainSt) : Option ((Tok × Tok) × TrainSt) :=
  if st.counts = [] then none
  else
    match pyMax? st.counts with
    | none => none
    | some (bp, cnt) =>
      if cnt < 2 then none
      else
        let newTok := bp.1 ++ bp.2
        let tok0 := st.tok
        let tok1 := { tok0 with
          merge_rank_map :=
            dictInsert newTok (tok0.merge_rank_map.length + 1) tok0.merge_rank_map
          vocabulary := dictInsert newTok cnt tok0.vocabulary }
        let tok2 := addToVocabMaps tok1 newTok
        let r := rescan newTok bp st.words st.counts
        some (bp, ⟨tok2, r.1, r.2⟩)

/-- The bounded training loop: `for i in range(num_merges)` with early break. -/
def trainLoop : Nat → TrainSt → TrainSt
  | 0, st => st
  | f + 1, st =>
    match trainStep st with
    | none => st
    | some (_, st') => trainLoop f st'

/-- Initial pair counts of a preprocessed corpus (the `pair_counts.update`
accumulation at the start of `train`). -/
def initCounts (ws : List (List Tok)) : List ((Tok × Tok) × Int) :=
  ws.foldl (fun c w => counterUpdate c (getPairs w)) []

/-- `train`: preprocess the corpus, accumulate pair counts, and run the merge
loop for at most `num_merges` iterations, returning the mutated tokenizer. -/
def train (fm : List (Char × List Char)) (tok : AmharicTokenizer)
    (corpus : List Char) : AmharicTokenizer :=
  let ws := preprocess fm corpus
  (trainLoop tok.num_merges ⟨tok, ws, initCounts ws⟩).tok

/-- The accumulator step of `get_best_merge`: keep the first adjacent pair
seen whose concatenation has a strictly smaller rank than the best so far
(pairs with unknown concatenation are skipped). -/
def bestStep (mm : List (Tok × Nat)) (acc : Option ((Tok × Tok) × Nat))
    (pr : Tok × Tok) : Option ((Tok × Tok) × Nat) :=
  match dictGet? mm (pr.1 ++ pr.2) with
  | none => acc
  | some r =>
    match acc with
    | none => some (pr, r)
    | some (p0, r0) => if r < r0 then some (pr, r) else some (p0, r0)

/-- `get_best_merge`: scan every adjacent pair in every word, returning the
first pair attaining the lowest merge rank, or `none` when no adjacent
pair's concatenation is a key of the merge-rank map. -/
def getBestMerge (mm : List (Tok × Nat)) (corpus : List (List Tok)) :
    Option (Tok × Tok) :=
  (corpus.foldl (fun acc w => (wordPairs w).foldl (bestStep mm) acc) none).map
    Prod.fst

/-- One global merge pass of `tokenize`: apply the selected pair to every
word of the corpus. -/
def mergePass (bp : Tok × Tok) (corpus : List (List Tok)) : List (List Tok) :=
  corpus.map (applyMergeWord bp)

/-- The scan-and-reapply loop of `tokenize`, made total with explicit fuel
(each productive pass strictly shrinks the corpus, so `totalLen` fuel is
enough to reach the fixpoint — see `tokenizeFinal_no_pair`). -/
def tokenizeLoop (mm : List (Tok × Nat)) : Nat → List (List Tok) → List (List Tok)
  | 0, c => c
  | f + 1, c =>
    match getBestMerge mm c with
    | none => c
    | some bp => tokenizeLoop mm f (mergePass bp c)

/-- Total number of tokens in a corpus, used as fuel for `tokenizeLoop`. -/
def totalLen (c : List (List Tok)) : Nat := (c.map List.length).sum

/-- The corpus reached by `tokenize` when its `while True` loop exits. -/
def tokenizeFinal (fm : List (Char × List Char)) (tok : AmharicTokenizer)
    (text : List Char) : List (List Tok) :=
  tokenizeLoop tok.merge_rank_map (totalLen (preprocess fm text))
    (preprocess fm text)

/-- `tokenize`: run the merge-application loop to its fixpoint and flatten
the words' token sequences in word order. -/
def tokenize (fm : List (Char × List Char)) (tok : AmharicTokenizer)
    (text : List Char) : List Tok :=
  (tokenizeFinal fm tok text).flatten

/-- `encode`: tokenize, then map each token to its ID with sentinel `-1` for
tokens absent from the registry. -/
def encode (fm : List (Char × List Char)) (tok : AmharicTokenizer)
    (text : List Char) : List Int :=
  (tokenize fm tok text).map fun t => (dictGet? tok.token_to_id t).getD (-1)

/-- Python `"".join(tokens).replace("<eow>", " ")`: left-to-right
non-overlapping replacement of the end-of-word marker by a space. -/
def replaceEow : List Char → List Char
  | '<' :: 'e' :: 'o' :: 'w' :: '>' :: rest => ' ' :: replaceEow rest
  | c :: cs => c :: replaceEow cs
  | [] => []

/-- The longest-match reconstruction scan of `detokenize`: at each position
try the substring of length 3, then 2, then 1 against the reverse table,
emitting the matched glyph and advancing by the trial length, or the literal
character when nothing matches.  Near the end of the word a slice is shorter
than its trial length, exactly as Python slicing behaves, so the duplicate
shorter trials collapse into a single lookup here. -/
def reconFuel (rfm : List (List Char × Char)) : Nat → List Char → List Char
  | 0, _ => []
  | _ + 1, [] => []
  | f + 1, c1 :: rest1 =>
    match rest1 with
    | [] =>
      match dictGet? rfm [c1] with
      | some g => [g]
      | none => [c1]
    | c2 :: rest2 =>
      match rest2 with
      | [] =>
        match dictGet? rfm [c1, c2] with
        | some g => [g]
        | none =>
          match dictGet? rfm [c1] with
          | some g => g :: reconFuel rfm f rest1
          | none => c1 :: reconFuel rfm f rest1
      | c3 :: rest3 =>
        match dictGet? rfm [c1, c2, c3] with
        | some g => g :: reconFuel rfm f rest3
        | none =>
          match dictGet? rfm [c1, c2] with
          | some g => g :: reconFuel rfm f rest2
          | none =>
            match dictGet? rfm [c1] with
            | some g => g :: reconFuel rfm f rest1
            | none => c1 :: reconFuel rfm f rest1

/-- Entry point of the reconstruction scan: the scan consumes at least one
character per step, so the word's length is enough fuel. -/
def reconWord (rfm : List (List Char × Char)) (s : List Char) : List Char :=
  reconFuel rfm s.length s

/-- Python `" ".join(words)`. -/
def joinSpace : List (List Char) → List Char
  | [] => []
  | [w] => w
  | w :: ws => w ++ ' ' :: joinSpace ws

/-- `detokenize`: concatenate the tokens, replace end-of-word markers by
spaces, split into word segments, reconstruct each by longest match against
the reverse table, and join with single spaces. -/
def detokenize (rfm : List (List Char × Char)) (tokens : List Tok) : List Char :=
  joinSpace ((splitWs (replaceEow tokens.flatten)).map (reconWord rfm))

/-- `decode`: map each ID back to its token (unknown IDs become the unknown
marker) and detokenize. -/
def decode (rfm : List (List Char × Char)) (tok : AmharicTokenizer)
    (ids : List Int) : List Char :=
  detokenize rfm (ids.map fun i => (dictGet? tok.id_to_token i).getD unkTok)

/-- The persisted representation written by `save` and read by
`load_tokenizer`.  Fields are optional so that a structurally incomplete
document (a missing key in the JSON object) is representable; `save` always
emits every field.  JSON round-trips the string keys of `id_to_token`
(written as `str(k)` and read back with `int(k)`) exactly for the integer
IDs the tokenizer assigns, so they are modelled as integers. -/
structure SavedState where
  num_merges : Option Nat
  vocabulary : Option (List (Tok × Int))
  merge_rank_map : Option (List (Tok × Nat))
  token_to_id : Option (List (Tok × Int))
  id_to_token : Option (List (Int × Tok))
  next_id : Option Int
deriving DecidableEq

/-- `save`: serialise the full tokenizer state. -/
def AmharicTokenizer.save (tok : AmharicTokenizer) : SavedState :=
  ⟨some tok.num_merges, some tok.vocabulary, some tok.merge_rank_map,
    some tok.token_to_id, some tok.id_to_token, some tok.next_id⟩

/-- The error raised while loading: a `KeyError` naming the missing field
(the only failure `load_tokenizer` can raise on a parsed document). -/
inductive LoadError where
  | keyError (field : String) : LoadError
deriving DecidableEq

/-- `load_tokenizer`: construct a fresh tokenizer with the saved merge
budget (`state.get('num_merges', 50000)`), then overwrite its five state
fields with the saved values; accessing a missing required field raises
`KeyError`, in the source's access order.  No consistency validation is
performed. -/
def load_tokenizer (fm : List (Char × List Char)) (s : SavedState) :
    Except LoadError AmharicTokenizer :=
  let base := AmharicTokenizer.init fm (s.num_merges.getD 50000)
  match s.vocabulary with
  | none => .error (.keyError "vocabulary")
  | some v =>
    match s.merge_rank_map with
    | none => .error (.keyError "merge_rank_map")
    | some m =>
      match s.token_to_id with
      | none => .error (.keyError "token_to_id")
      | some ti =>
        match s.id_to_token with
        | none => .error (.keyError "id_to_token")
        | some it =>
          match s.next_id with
          | none => .error (.keyError "next_id")
          | some ni =>
            .ok { base with
                  vocabulary := v
                  merge_rank_map := m
                  token_to_id := ti
                  id_to_token := it
                  next_id := ni }

/-- Whether an `Except` value is a success. -/
def exceptIsOk {ε α : Type} : Except ε α → Bool
  | .ok _ => true
  | .error _ => false

/-- The candidate list read off by the specification's description of
`tokenize`: every adjacent pair across all words, in scan order, paired with
the rank of its concatenation when that concatenation is a known merge. -/
def candList (mm : List (Tok × Nat)) (corpus : List (List Tok)) :
    List ((Tok × Tok) × Nat) :=
  (corpus.flatMap wordPairs).filterMap fun pr =>
    (dictGet? mm (pr.1 ++ pr.2)).map (fun r => (pr, r))

/-- Selection as worded by the specification: track the minimum rank seen
over all applicable adjacent pairs, and apply the pair carrying that
minimum (the first one in scan order among equals). -/
def specSelect (l : List ((Tok × Tok) × Nat)) : Option ((Tok × Tok) × Nat) :=
  match l with
  | [] => none
  | x :: xs =>
    let m := (x :: xs).foldl (fun a y => min a y.2) x.2
    (x :: xs).find? (fun y => y.2 == m)

/-- The merge-application loop as worded by the specification (§4.4): find
the lowest-ranked applicable pair, apply it at every non-overlapping
left-to-right occurrence across all words, rescan from scratch; stop when no
adjacent pair's concatenation is a known merge rule. -/
def tokenizeLoopSpec (mm : List (Tok × Nat)) :
    Nat → List (List Tok) → List (List Tok)
  | 0, c => c
  | f + 1, c =>
    match specSelect (candList mm c) with
    | none => c
    | some (bp, _) => tokenizeLoopSpec mm f (mergePass bp c)

/-- `tokenize` as described by the specification's words: repeated global
lowest-rank merge passes, then the words' token sequences flattened in word
order (the end-of-word marker remains a token). -/
def tokenizeSpec (fm : List (Char × List Char)) (tok : AmharicTokenizer)
    (text : List Char) : List Tok :=
  (tokenizeLoopSpec tok.merge_rank_map (totalLen (preprocess fm text))
    (preprocess fm text)).flatten

/-- Freshness of one training run: along the run, every selected merge's
concatenation is a token not yet present in the ID registry.  This is the
hypothesis under which the next-ID accounting and rank monotonicity hold. -/
def freshRun : Nat → TrainSt → Bool
  | 0, _ => true
  | f + 1, st =>
    match trainStep st with
    | none => true
    | some (bp, st') =>
      decide (dictGet? st.tok.token_to_id (bp.1 ++ bp.2) = none) && freshRun f st'

/-- Freshness of the training run `train fm tok corpus`. -/
def trainFresh (fm : List (Char × List Char)) (tok : AmharicTokenizer)
    (corpus : List Char) : Bool :=
  freshRun tok.num_merges ⟨tok, preprocess fm corpus,
    initCounts (preprocess fm corpus)⟩

/-! Basic lemmas about the dictionary model. -/

/-- Selection step on pre-ranked candidates: keep the first candidate whose
rank is strictly smaller than the best seen so far. -/
def selStep (acc : Option ((Tok × Tok) × Nat)) (x : (Tok × Tok) × Nat) :
    Option ((Tok × Tok) × Nat) :=
  match acc with
  | none => some x
  | some b => if x.2 < b.2 then some x else some b

/-- Every key of the merge-rank map is registered in the ID registry (holds
from construction on and is preserved by training). -/
def mrmSubT2i (tok : AmharicTokenizer) : Prop :=
  ∀ k r, dictGet? tok.merge_rank_map k = some r →
    (dictGet? tok.token_to_id k).isSome = true

/-- The ID registry inverse property: every registered token's ID maps back
to that token. -/
def registryInv (tok : AmharicTokenizer) : Prop :=
  ∀ t i, dictGet? tok.token_to_id t = some i →
    dictGet? tok.id_to_token i = some t

/-- All assigned IDs are below the next-ID counter. -/
def registryBound (tok : AmharicTokenizer) : Prop :=
  ∀ i, (dictGet? tok.id_to_token i).isSome = true → i < tok.next_id

/-- The base-unit character stream of one word: each character's value
string from the table, or the character itself as fallback. -/
def unitsOf (fm : List (Char × List Char)) (w : List Char) : List Char :=
  w.flatMap fun c => (dictGet? fm c).getD [c]

/-- Concrete states used to witness the stop conditions of `C4`. -/
def stStop1 : TrainSt :=
  ⟨AmharicTokenizer.init [] 5, [[['a'], eowTok]], []⟩

/-- Concrete state with a best pair of frequency 1, used to witness `C4`. -/
def stStop2 : TrainSt :=
  ⟨AmharicTokenizer.init [] 5, [[['a'], eowTok]], [((['a'], eowTok), 1)]⟩

/-- A persisted state that is structurally complete but internally
inconsistent: two tokens share ID `0`, two IDs map to different tokens under
the same key, and two merge rules share rank `1`. -/
def sBad : SavedState :=
  ⟨some 5, some [], some [(['x'], 1), (['y'], 1)],
    some [(['a'], 0), (['b'], 0)], some [(0, ['a']), (0, ['b'])], some 2⟩

/-- A persisted state missing its required `vocabulary` field. -/
def sMissing : SavedState := ⟨some 5, none, some [], some [], some [], some 0⟩

/-- The single-word corpus `"aa aa"`. -/
def corpusAA : List Char := ['a', 'a', ' ', 'a', 'a']

/-- A small concrete decomposition table used by witnesses and
counterexamples.  Modelled from the spec: the real `AMHARIC_FIDEL_MAP` data
file is not part of the sources, so concrete instances satisfying the
Decomposition Table contract of §3 (glyph → 1–3 base units, reverse
inverts, no value a prefix of another) stand in for it. -/
def fmWitness : List (Char × List Char) := [('A', ['a']), ('B', ['b', 'c'])]

/-- Reverse table of `fmWitness`; modelled from the spec like `fmWitness`. -/
def rfmWitness : List (List Char × Char) := [(['a'], 'A'), (['b', 'c'], 'B')]

/-- The trained-on-empty-corpus tokenizer used by the C9 counterexample. -/
def tokC9 : AmharicTokenizer := train [] (AmharicTokenizer.init [] 10) []

theorem dictGet?_dictInsert {α β : Type} [DecidableEq α] (k a : α) (v : β)
    (d : List (α × β)) :
    dictGet? (dictInsert k v d) a = if k = a then some v else dictGet? d a := by
  induction d with
  | nil => simp [dictInsert, dictGet?]
  | cons p t ih =>
    obtain ⟨k', v'⟩ := p
    by_cases hk : k' = k
    · subst hk
      simp only [dictInsert, if_pos rfl, dictGet?]
      by_cases ha : k' = a <;> simp [ha]
    · simp only [dictInsert, if_neg hk]
      by_cases ha : k' = a
      · subst ha
        have : ¬k = k' := fun h => hk h.symm
        simp [dictGet?, this]
      · simp [dictGet?, ha, ih]

theorem dictInsert_of_get_none {α β : Type} [DecidableEq α] {k : α} (v : β)
    {d : List (α × β)} (h : dictGet? d k = none) :
    dictInsert k v d = d ++ [(k, v)] := by
  induction d with
  | nil => simp [dictInsert]
  | cons p t ih =>
    obtain ⟨k', v'⟩ := p
    simp only [dictGet?] at h
    by_cases hk : k' = k
    · simp [hk] at h
    · simp only [dictGet?, if_neg hk] at h
      simp [dictInsert, hk, ih h]

theorem dictInsert_length_le {α β : Type} [DecidableEq α] (k : α) (v : β)
    (d : List (α × β)) :
    (dictInsert k v d).length ≤ d.length + 1 := by
  induction d with
  | nil => simp [dictInsert]
  | cons p t ih =>
    obtain ⟨k', v'⟩ := p
    simp only [dictInsert]
    split
    · simp
    · simpa using Nat.succ_le_succ ih

theorem dictGet?_mem {α β : Type} [DecidableEq α] {d : List (α × β)} {a : α}
    {b : β} (h : dictGet? d a = some b) : (a, b) ∈ d := by
  induction d with
  | nil => simp [dictGet?] at h
  | cons p t ih =>
    obtain ⟨k', v'⟩ := p
    simp only [dictGet?] at h
    by_cases hk : k' = a
    · subst hk
      simp at h
      simp [h]
    · simp only [if_neg hk] at h
      exact List.mem_cons_of_mem _ (ih h)

/-! Lemmas for claim C10: merges preserve the underlying character stream. -/

theorem flatten_applyMergeAux (bp : Tok × Tok) (w : List Tok) :
    ∀ carry, (applyMergeAux bp carry w).flatten =
      (carryToks carry ++ w).flatten := by
  induction w with
  | nil => intro carry; cases carry <;> simp [applyMergeAux, carryToks]
  | cons t2 rest ih =>
    intro carry
    cases carry with
    | none =>
      have h := ih (some t2)
      simp only [carryToks] at h
      simpa [applyMergeAux, carryToks] using h
    | some t1 =>
      by_cases h : t1 = bp.1 ∧ t2 = bp.2
      · obtain ⟨h1, h2⟩ := h
        have hnone := ih none
        simp only [carryToks] at hnone
        simp [applyMergeAux, h1, h2, carryToks, hnone]
      · have hsome := ih (some t2)
        simp only [carryToks] at hsome
        simp [applyMergeAux, h, carryToks, hsome]

theorem flatten_applyMergeWord (bp : Tok × Tok) (w : List Tok) :
    (applyMergeWord bp w).flatten = w.flatten := by
  have h := flatten_applyMergeAux bp w none
  simpa [applyMergeWord, carryToks] using h

theorem flatten_flatten_mergePass (bp : Tok × Tok) (c : List (List Tok)) :
    ((mergePass bp c).flatten).flatten = (c.flatten).flatten := by
  induction c with
  | nil => simp [mergePass]
  | cons w ws ih =>
    simp only [mergePass, List.map_cons, List.flatten_cons, List.flatten_append]
    rw [flatten_applyMergeWord]
    simpa [mergePass] using congrArg (w.flatten ++ ·) ih

theorem flatten_flatten_tokenizeLoop (mm : List (Tok × Nat)) (f : Nat)
    (c : List (List Tok)) :
    ((tokenizeLoop mm f c).flatten).flatten = (c.flatten).flatten := by
  induction f generalizing c with
  | zero => rfl
  | succ f ih =>
    rw [tokenizeLoop]
    cases hb : getBestMerge mm c with
    | none => rfl
    | some bp => rw [ih, flatten_flatten_mergePass]

/-- C10: for every tokenizer state and every input text, concatenating all
tokens returned by `tokenize` yields the same character string as
concatenating all base units produced by `preprocess`: each merge pass only
replaces an adjacent pair of tokens by their concatenation, so the
underlying character stream is preserved. -/
theorem C10_tokenize_preserves_stream (fm : List (Char × List Char))
    (tok : AmharicTokenizer) (text : List Char) :
    (tokenize fm tok text).flatten = ((preprocess fm text).flatten).flatten := by
  unfold tokenize tokenizeFinal
  exact flatten_flatten_tokenizeLoop _ _ _

/-! Lemmas for claim C1: the merge-application loop of `tokenize`. -/

theorem bestStep_eq_selStep (mm : List (Tok × Nat))
    (acc : Option ((Tok × Tok) × Nat)) (pr : Tok × Tok) :
    bestStep mm acc pr =
      match dictGet? mm (pr.1 ++ pr.2) with
      | none => acc
      | some r => selStep acc (pr, r) := by
  cases h : dictGet? mm (pr.1 ++ pr.2) with
  | none => cases acc <;> simp [bestStep, h]
  | some r => cases acc with
    | none => simp [bestStep, h, selStep]
    | some b => obtain ⟨p0, r0⟩ := b; simp [bestStep, h, selStep]

theorem foldl_bestStep_eq (mm : List (Tok × Nat)) (l : List (Tok × Tok))
    (acc : Option ((Tok × Tok) × Nat)) :
    l.foldl (bestStep mm) acc =
      (l.filterMap fun pr =>
        (dictGet? mm (pr.1 ++ pr.2)).map (fun r => (pr, r))).foldl selStep acc := by
  induction l generalizing acc with
  | nil => rfl
  | cons p t ih =>
    simp only [List.foldl_cons, List.filterMap_cons]
    rw [bestStep_eq_selStep]
    cases h : dictGet? mm (p.1 ++ p.2) with
    | none => simp [ih]
    | some r => simp [ih]

theorem getBestMerge_eq_foldl (mm : List (Tok × Nat)) (c : List (List Tok)) :
    getBestMerge mm c = ((candList mm c).foldl selStep none).map Prod.fst := by
  unfold getBestMerge candList
  congr 1
  have aux : ∀ (c : List (List Tok)) (acc : Option ((Tok × Tok) × Nat)),
      c.foldl (fun acc w => (wordPairs w).foldl (bestStep mm) acc) acc =
        ((c.flatMap wordPairs).filterMap fun pr =>
          (dictGet? mm (pr.1 ++ pr.2)).map (fun r => (pr, r))).foldl selStep acc := by
    intro c
    induction c with
    | nil => intro acc; rfl
    | cons w ws ih =>
      intro acc
      simp only [List.foldl_cons, List.flatMap_cons, List.filterMap_append,
        List.foldl_append]
      rw [foldl_bestStep_eq, ih]
  exact aux c none

theorem foldlMin_le (l : List ((Tok × Tok) × Nat)) (a : Nat) :
    l.foldl (fun a y => min a y.2) a ≤ a := by
  induction l generalizing a with
  | nil => simp
  | cons y t ih =>
    simp only [List.foldl_cons]
    exact Nat.le_trans (ih (min a y.2)) (Nat.min_le_left _ _)

theorem specSelect_absorb (b x : (Tok × Tok) × Nat)
    (xs : List ((Tok × Tok) × Nat)) :
    specSelect (b :: x :: xs) = specSelect ((if x.2 < b.2 then x else b) :: xs) := by
  by_cases h : x.2 < b.2
  · simp only [if_pos h, specSelect, List.foldl_cons, Nat.min_self]
    have hmin : min b.2 x.2 = x.2 := Nat.min_eq_right (Nat.le_of_lt h)
    rw [hmin]
    have hle : xs.foldl (fun a y => min a y.2) x.2 ≤ x.2 := foldlMin_le xs x.2
    have hb : (b.2 == xs.foldl (fun a y => min a y.2) x.2) = false := by
      refine beq_eq_false_iff_ne.mpr ?_
      omega
    simp [List.find?, hb]
  · have hbx : b.2 ≤ x.2 := Nat.le_of_not_lt h
    simp only [if_neg h, specSelect, List.foldl_cons, Nat.min_self]
    have hmin : min b.2 x.2 = b.2 := Nat.min_eq_left hbx
    rw [hmin]
    set m := xs.foldl (fun a y => min a y.2) b.2 with hm
    have hle : m ≤ b.2 := foldlMin_le xs b.2
    by_cases hb : b.2 = m
    · simp [List.find?, hb]
    · have hbf : (b.2 == m) = false := beq_eq_false_iff_ne.mpr hb
      have hxf : (x.2 == m) = false := by
        refine beq_eq_false_iff_ne.mpr ?_
        omega
      simp [List.find?, hbf, hxf]

theorem foldl_selStep_some (l : List ((Tok × Tok) × Nat))
    (b : (Tok × Tok) × Nat) :
    l.foldl selStep (some b) = specSelect (b :: l) := by
  induction l generalizing b with
  | nil => simp [specSelect, List.find?]
  | cons x xs ih =>
    have hstep : selStep (some b) x = some (if x.2 < b.2 then x else b) := by
      simp only [selStep]
      by_cases h : x.2 < b.2 <;> simp [h]
    rw [List.foldl_cons, hstep, ih, specSelect_absorb]

theorem foldl_selStep_none (l : List ((Tok × Tok) × Nat)) :
    l.foldl selStep none = specSelect l := by
  cases l with
  | nil => rfl
  | cons x xs =>
    rw [List.foldl_cons]
    have : selStep none x = some x := rfl
    rw [this, foldl_selStep_some]

theorem getBestMerge_eq_spec (mm : List (Tok × Nat)) (c : List (List Tok)) :
    getBestMerge mm c = (specSelect (candList mm c)).map Prod.fst := by
  rw [getBestMerge_eq_foldl, foldl_selStep_none]

theorem tokenizeLoop_eq_spec (mm : List (Tok × Nat)) (f : Nat)
    (c : List (List Tok)) :
    tokenizeLoop mm f c = tokenizeLoopSpec mm f c := by
  induction f generalizing c with
  | zero => rfl
  | succ f ih =>
    rw [tokenizeLoop, tokenizeLoopSpec, getBestMerge_eq_spec]
    cases h : specSelect (candList mm c) with
    | none => rfl
    | some br => obtain ⟨bp, r⟩ := br; simp [ih]

theorem wordPairs_cons₂ (t1 t2 : Tok) (rest : List Tok) :
    wordPairs (t1 :: t2 :: rest) = (t1, t2) :: wordPairs (t2 :: rest) := rfl

theorem foldl_selStep_mem (l : List ((Tok × Tok) × Nat))
    (acc : Option ((Tok × Tok) × Nat)) (x : (Tok × Tok) × Nat)
    (h : l.foldl selStep acc = some x) : x ∈ l ∨ acc = some x := by
  induction l generalizing acc with
  | nil => exact Or.inr h
  | cons y t ih =>
    rw [List.foldl_cons] at h
    rcases ih _ h with hm | hs
    · exact Or.inl (List.mem_cons_of_mem _ hm)
    · cases acc with
      | none =>
        simp only [selStep] at hs
        exact Or.inl (by simp [← Option.some_inj.mp hs])
      | some b =>
        simp only [selStep] at hs
        by_cases hlt : y.2 < b.2
        · rw [if_pos hlt] at hs
          exact Or.inl (by simp [← Option.some_inj.mp hs])
        · rw [if_neg hlt] at hs
          exact Or.inr hs

theorem candList_mem {mm : List (Tok × Nat)} {c : List (List Tok)}
    {pr : Tok × Tok} {r : Nat} (h : (pr, r) ∈ candList mm c) :
    ∃ w ∈ c, pr ∈ wordPairs w ∧ dictGet? mm (pr.1 ++ pr.2) = some r := by
  unfold candList at h
  rcases List.mem_filterMap.mp h with ⟨a, ha, hf⟩
  rcases Option.map_eq_some'.mp hf with ⟨r', hr', heq⟩
  obtain ⟨rfl, rfl⟩ : a = pr ∧ r' = r := by
    constructor <;> cases heq <;> rfl
  rcases List.mem_flatMap.mp ha with ⟨w, hw, hpw⟩
  exact ⟨w, hw, hpw, hr'⟩

theorem getBestMerge_some_occurs {mm : List (Tok × Nat)} {c : List (List Tok)}
    {bp : Tok × Tok} (h : getBestMerge mm c = some bp) :
    ∃ w ∈ c, bp ∈ wordPairs w := by
  rw [getBestMerge_eq_foldl] at h
  rcases Option.map_eq_some'.mp h with ⟨⟨p, r⟩, hp, hfst⟩
  cases hfst
  rcases foldl_selStep_mem _ _ _ hp with hm | hnone
  · rcases candList_mem hm with ⟨w, hw, hpw, _⟩
    exact ⟨w, hw, hpw⟩
  · exact absurd hnone (by simp)

theorem applyMergeAux_length_le (bp : Tok × Tok) (w : List Tok) :
    ∀ carry, (applyMergeAux bp carry w).length ≤
      (carryToks carry).length + w.length := by
  induction w with
  | nil => intro carry; cases carry <;> simp [applyMergeAux, carryToks]
  | cons t2 rest ih =>
    intro carry
    cases carry with
    | none =>
      have h := ih (some t2)
      simp only [carryToks, List.length_cons, List.length_nil,
        List.length_singleton] at h ⊢
      simp only [applyMergeAux]
      omega
    | some t1 =>
      by_cases h : t1 = bp.1 ∧ t2 = bp.2
      · have hnone := ih none
        simp only [carryToks, List.length_nil, List.length_cons,
          List.length_singleton] at hnone ⊢
        simp only [applyMergeAux, if_pos h, List.length_cons]
        omega
      · have hsome := ih (some t2)
        simp only [carryToks, List.length_cons, List.length_singleton] at hsome ⊢
        simp only [applyMergeAux, if_neg h, List.length_cons]
        omega

theorem applyMergeWord_length_le (bp : Tok × Tok) (w : List Tok) :
    (applyMergeWord bp w).length ≤ w.length := by
  have h := applyMergeAux_length_le bp w none
  simpa [applyMergeWord, carryToks] using h

theorem applyMergeAux_length_lt (bp : Tok × Tok) (w : List Tok) :
    ∀ carry, bp ∈ wordPairs (carryToks carry ++ w) →
      (applyMergeAux bp carry w).length < (carryToks carry).length + w.length := by
  induction w with
  | nil =>
    intro carry h
    cases carry <;> simp [carryToks, wordPairs] at h
  | cons t2 rest ih =>
    intro carry
    cases carry with
    | none =>
      intro h
      have hlt := ih (some t2) (by simpa [carryToks] using h)
      simp only [carryToks, List.length_cons, List.length_nil,
        List.length_singleton] at hlt ⊢
      simp only [applyMergeAux]
      omega
    | some t1 =>
      intro h
      by_cases hc : t1 = bp.1 ∧ t2 = bp.2
      · have hle := applyMergeAux_length_le bp rest none
        simp only [carryToks, List.length_nil, List.length_cons,
          List.length_singleton] at hle ⊢
        simp only [applyMergeAux, if_pos hc, List.length_cons]
        omega
      · simp only [carryToks, List.singleton_append] at h
        rw [wordPairs_cons₂, List.mem_cons] at h
        rcases h with heq | hmem
        · exact absurd ⟨congrArg Prod.fst heq.symm, congrArg Prod.snd heq.symm⟩ hc
        · have hlt := ih (some t2) (by simpa [carryToks] using hmem)
          simp only [carryToks, List.length_cons, List.length_singleton] at hlt ⊢
          simp only [applyMergeAux, if_neg hc, List.length_cons]
          omega

theorem applyMergeWord_length_lt (bp : Tok × Tok) (w : List Tok) :
    bp ∈ wordPairs w → (applyMergeWord bp w).length < w.length := by
  intro h
  have hlt := applyMergeAux_length_lt bp w none (by simpa [carryToks] using h)
  simpa [applyMergeWord, carryToks] using hlt

theorem totalLen_cons (w : List Tok) (ws : List (List Tok)) :
    totalLen (w :: ws) = w.length + totalLen ws := by
  simp [totalLen]

theorem totalLen_mergePass_le (bp : Tok × Tok) (c : List (List Tok)) :
    totalLen (mergePass bp c) ≤ totalLen c := by
  induction c with
  | nil => simp [mergePass, totalLen]
  | cons w ws ih =>
    simp only [mergePass, List.map_cons] at ih ⊢
    rw [totalLen_cons, totalLen_cons]
    have := applyMergeWord_length_le bp w
    omega

theorem totalLen_mergePass_lt (bp : Tok × Tok) (c : List (List Tok))
    (h : ∃ w ∈ c, bp ∈ wordPairs w) :
    totalLen (mergePass bp c) < totalLen c := by
  induction c with
  | nil => simp at h
  | cons w ws ih =>
    simp only [mergePass, List.map_cons] at ih ⊢
    rw [totalLen_cons, totalLen_cons]
    rcases h with ⟨w', hw', hbp⟩
    rcases List.mem_cons.mp hw' with rfl | hmem
    · have h1 := applyMergeWord_length_lt bp w' hbp
      have h2 := totalLen_mergePass_le bp ws
      simp only [mergePass] at h2
      omega
    · have h1 := applyMergeWord_length_le bp w
      have h2 := ih ⟨w', hmem, hbp⟩
      omega

theorem foldlMin_attained (l : List ((Tok × Tok) × Nat)) (a : Nat) :
    l.foldl (fun a y => min a y.2) a = a ∨
      ∃ y ∈ l, l.foldl (fun a y => min a y.2) a = y.2 := by
  induction l generalizing a with
  | nil => exact Or.inl rfl
  | cons y t ih =>
    rw [List.foldl_cons]
    rcases ih (min a y.2) with h | ⟨z, hz, hzeq⟩
    · rcases Nat.le_total a y.2 with hle | hle
      · exact Or.inl (by rw [h, Nat.min_eq_left hle])
      · exact Or.inr ⟨y, List.mem_cons_self _ _, by rw [h, Nat.min_eq_right hle]⟩
    · exact Or.inr ⟨z, List.mem_cons_of_mem _ hz, hzeq⟩

theorem specSelect_cons_ne_none (x : (Tok × Tok) × Nat)
    (xs : List ((Tok × Tok) × Nat)) : specSelect (x :: xs) ≠ none := by
  simp only [specSelect]
  intro hfind
  rw [List.find?_eq_none] at hfind
  rcases foldlMin_attained (x :: xs) x.2 with h | ⟨y, hy, hyeq⟩
  · exact hfind x (List.mem_cons_self _ _) (by simp [h])
  · exact hfind y hy (by simp [hyeq])

theorem getBestMerge_none_forall {mm : List (Tok × Nat)} {c : List (List Tok)}
    (h : getBestMerge mm c = none) :
    ∀ w ∈ c, ∀ pr ∈ wordPairs w, dictGet? mm (pr.1 ++ pr.2) = none := by
  intro w hw pr hpr
  cases hd : dictGet? mm (pr.1 ++ pr.2) with
  | none => rfl
  | some r =>
    exfalso
    have hmem : (pr, r) ∈ candList mm c := by
      unfold candList
      refine List.mem_filterMap.mpr ⟨pr, ?_, by simp [hd]⟩
      exact List.mem_flatMap.mpr ⟨w, hw, hpr⟩
    rw [getBestMerge_eq_spec] at h
    rcases hc : candList mm c with _ | ⟨x, xs⟩
    · rw [hc] at hmem
      simp at hmem
    · rw [hc] at h
      rcases hs : specSelect (x :: xs) with _ | y
      · exact specSelect_cons_ne_none x xs hs
      · rw [hs] at h
        simp at h

theorem totalLen_zero_all_nil {c : List (List Tok)} (h : totalLen c = 0) :
    ∀ w ∈ c, w = [] := by
  intro w hw
  unfold totalLen at h
  have := List.sum_eq_zero_iff.mp h (w.length) (List.mem_map_of_mem _ hw)
  exact List.length_eq_zero.mp this

theorem getBestMerge_of_all_nil {mm : List (Tok × Nat)} {c : List (List Tok)}
    (h : ∀ w ∈ c, w = []) : getBestMerge mm c = none := by
  rw [getBestMerge_eq_spec]
  have : candList mm c = [] := by
    unfold candList
    have hfl : c.flatMap wordPairs = [] := by
      induction c with
      | nil => rfl
      | cons w ws ih =>
        rw [List.flatMap_cons, h w (List.mem_cons_self _ _),
          ih (fun w hw => h w (List.mem_cons_of_mem _ hw))]
        rfl
    rw [hfl]
    rfl
  rw [this]
  rfl

theorem tokenizeLoop_fuel (mm : List (Tok × Nat)) :
    ∀ (f : Nat) (c : List (List Tok)), totalLen c ≤ f →
      getBestMerge mm (tokenizeLoop mm f c) = none := by
  intro f
  induction f with
  | zero =>
    intro c hc
    exact getBestMerge_of_all_nil (totalLen_zero_all_nil (Nat.le_zero.mp hc))
  | succ f ih =>
    intro c hc
    rw [tokenizeLoop]
    cases hb : getBestMerge mm c with
    | none => exact hb
    | some bp =>
      have hlt := totalLen_mergePass_lt bp c (getBestMerge_some_occurs hb)
      exact ih _ (by omega)

/-- C1: `tokenize` proceeds by repeated global passes exactly as the
specification words them — in each pass it selects the adjacent pair whose
concatenation has the minimum rank in the merge-rank map and applies that
single merge at every non-overlapping left-to-right occurrence across all
words, rescanning from scratch (`tokenize = tokenizeSpec`); the loop stops
exactly when no adjacent pair's concatenation is a known merge (no pair of
the final corpus is a key of the map); and the result is the words' token
sequences flattened in word order. -/
theorem C1_tokenize_lowest_rank_global_passes (fm : List (Char × List Char))
    (tok : AmharicTokenizer) (text : List Char) :
    tokenize fm tok text = tokenizeSpec fm tok text ∧
    (∀ w ∈ tokenizeFinal fm tok text, ∀ pr ∈ wordPairs w,
      dictGet? tok.merge_rank_map (pr.1 ++ pr.2) = none) ∧
    tokenize fm tok text = (tokenizeFinal fm tok text).flatten := by
  refine ⟨?_, ?_, rfl⟩
  · unfold tokenize tokenizeFinal tokenizeSpec
    rw [tokenizeLoop_eq_spec]
  · exact getBestMerge_none_forall
      (tokenizeLoop_fuel tok.merge_rank_map _ _ (Nat.le_refl _))

/-! Lemmas and theorems for claim C3: save/load reproduces the tokenizer. -/

theorem addToVocabMaps_vocabulary (tok : AmharicTokenizer) (t : Tok) :
    (addToVocabMaps tok t).vocabulary = tok.vocabulary := by
  unfold addToVocabMaps
  split <;> rfl

theorem addToVocabMaps_merge_rank_map (tok : AmharicTokenizer) (t : Tok) :
    (addToVocabMaps tok t).merge_rank_map = tok.merge_rank_map := by
  unfold addToVocabMaps
  split <;> rfl

theorem addToVocabMaps_num_merges (tok : AmharicTokenizer) (t : Tok) :
    (addToVocabMaps tok t).num_merges = tok.num_merges := by
  unfold addToVocabMaps
  split <;> rfl

theorem init_num_merges (fm : List (Char × List Char)) (nm : Nat) :
    (AmharicTokenizer.init fm nm).num_merges = nm := by
  unfold AmharicTokenizer.init
  have aux : ∀ (l : List Tok) (t0 : AmharicTokenizer),
      (l.foldl (fun tok t =>
        addToVocabMaps { tok with vocabulary := dictInsert t 0 tok.vocabulary } t)
        t0).num_merges = t0.num_merges := by
    intro l
    induction l with
    | nil => intro t0; rfl
    | cons x xs ih =>
      intro t0
      rw [List.foldl_cons, ih, addToVocabMaps_num_merges]
  exact aux _ _

/-- C3: saving a tokenizer and loading the result back succeeds and yields a
tokenizer whose `tokenize`, `encode`, `decode` and `detokenize` outputs are
identical to the pre-save instance on every input (`load` restores every
state field exactly; `detokenize` reads no tokenizer state at all). -/
theorem C3_save_load_reproduces_behavior (fm : List (Char × List Char))
    (rfm : List (List Char × Char)) (tok : AmharicTokenizer) :
    ∃ tok', load_tokenizer fm tok.save = Except.ok tok' ∧
      (∀ text, tokenize fm tok' text = tokenize fm tok text) ∧
      (∀ text, encode fm tok' text = encode fm tok text) ∧
      (∀ ids, decode rfm tok' ids = decode rfm tok ids) ∧
      (∀ ts, detokenize rfm ts = detokenize rfm ts) := by
  refine ⟨tok, ?_, fun _ => rfl, fun _ => rfl, fun _ => rfl, fun _ => rfl⟩
  show Except.ok { AmharicTokenizer.init fm ((some tok.num_merges).getD 50000) with
    vocabulary := tok.vocabulary, merge_rank_map := tok.merge_rank_map,
    token_to_id := tok.token_to_id, id_to_token := tok.id_to_token,
    next_id := tok.next_id } = Except.ok tok
  have hnm : ((some tok.num_merges).getD 50000) = tok.num_merges := rfl
  rw [hnm]
  cases tok
  simp [init_num_merges]

/-! Lemmas and theorems for claim C4: termination of `train`. -/

theorem trainStep_mrm_le {st st' : TrainSt} {bp : Tok × Tok}
    (h : trainStep st = some (bp, st')) :
    st'.tok.merge_rank_map.length ≤ st.tok.merge_rank_map.length + 1 := by
  unfold trainStep at h
  split at h
  · exact absurd h (by simp)
  · cases hmax : pyMax? st.counts with
    | none => rw [hmax] at h; exact absurd h (by simp)
    | some bc =>
      obtain ⟨bp', cnt⟩ := bc
      rw [hmax] at h
      simp only at h
      split at h
      · exact absurd h (by simp)
      · simp only [Option.some_inj, Prod.mk.injEq] at h
        obtain ⟨rfl, rfl⟩ := h
        simp only [addToVocabMaps_merge_rank_map]
        exact dictInsert_length_le _ _ _

theorem trainLoop_mrm_le (f : Nat) (st : TrainSt) :
    (trainLoop f st).tok.merge_rank_map.length ≤
      st.tok.merge_rank_map.length + f := by
  induction f generalizing st with
  | zero => simp [trainLoop]
  | succ f ih =>
    cases hs : trainStep st with
    | none =>
      simp only [trainLoop, hs]
      omega
    | some p =>
      obtain ⟨bp, st'⟩ := p
      have h1 := trainStep_mrm_le hs
      have h2 := ih st'
      simp only [trainLoop, hs]
      omega

/-- C4: `train` performs at most `num_merges` merge iterations — the
merge-rank map grows by at most the merge budget — and the loop stops
immediately, leaving the state untouched, as soon as the pair-count table is
empty or the best pair's frequency is below 2. -/
theorem C4_train_budget_and_stop_conditions (fm : List (Char × List Char))
    (tok : AmharicTokenizer) (corpus : List Char) (st : TrainSt) (f : Nat)
    (bp : Tok × Tok) (cnt : Int) :
    ((train fm tok corpus).merge_rank_map.length ≤
      tok.merge_rank_map.length + tok.num_merges) ∧
    (st.counts = [] → trainLoop f st = st) ∧
    (pyMax? st.counts = some (bp, cnt) → cnt < 2 → trainLoop f st = st) := by
  refine ⟨?_, ?_, ?_⟩
  · unfold train
    exact trainLoop_mrm_le _ _
  · intro hc
    cases f with
    | zero => rfl
    | succ f =>
      rw [trainLoop]
      unfold trainStep
      rw [if_pos hc]
  · intro hmax hcnt
    cases f with
    | zero => rfl
    | succ f =>
      rw [trainLoop]
      unfold trainStep
      have hne : ¬st.counts = [] := by
        intro hc
        rw [hc] at hmax
        exact absurd hmax (by simp [pyMax?])
      rw [if_neg hne, hmax]
      simp [if_pos hcnt]

/-- Witness for C4 at concrete inputs: the budget bound on a real corpus and
both stop conditions observed on concrete states. -/
theorem C4_witness :
    ((train [] (AmharicTokenizer.init [] 5) ['a', 'a', ' ', 'a', 'a']).merge_rank_map.length ≤
      (AmharicTokenizer.init [] 5).merge_rank_map.length +
        (AmharicTokenizer.init [] 5).num_merges) ∧
    trainLoop 5 stStop1 = stStop1 ∧ trainLoop 5 stStop2 = stStop2 := by
  refine ⟨(C4_train_budget_and_stop_conditions [] (AmharicTokenizer.init [] 5)
    ['a', 'a', ' ', 'a', 'a'] stStop1 5 (['a'], eowTok) 1).1, ?_, ?_⟩
  · exact (C4_train_budget_and_stop_conditions [] (AmharicTokenizer.init [] 5)
      ['a', 'a', ' ', 'a', 'a'] stStop1 5 (['a'], eowTok) 1).2.1 rfl
  · exact (C4_train_budget_and_stop_conditions [] (AmharicTokenizer.init [] 5)
      ['a', 'a', ' ', 'a', 'a'] stStop2 5 (['a'], eowTok) 1).2.2 (by decide)
      (by decide)

/-! Theorems for claim C7: error behaviour of `load_tokenizer`. -/

/-- C7 (amended): loading fails with a `KeyError` naming the first missing
required field, in the source's access order; but when all five required
fields are present the load succeeds unconditionally — no consistency
validation (duplicate IDs, rank collisions) is performed. -/
theorem C7_load_missing_field_errors (fm : List (Char × List Char))
    (s : SavedState) :
    (s.vocabulary = none →
      load_tokenizer fm s = .error (.keyError "vocabulary")) ∧
    (s.vocabulary ≠ none → s.merge_rank_map = none →
      load_tokenizer fm s = .error (.keyError "merge_rank_map")) ∧
    (s.vocabulary ≠ none → s.merge_rank_map ≠ none → s.token_to_id = none →
      load_tokenizer fm s = .error (.keyError "token_to_id")) ∧
    (s.vocabulary ≠ none → s.merge_rank_map ≠ none → s.token_to_id ≠ none →
      s.id_to_token = none →
      load_tokenizer fm s = .error (.keyError "id_to_token")) ∧
    (s.vocabulary ≠ none → s.merge_rank_map ≠ none → s.token_to_id ≠ none →
      s.id_to_token ≠ none → s.next_id = none →
      load_tokenizer fm s = .error (.keyError "next_id")) ∧
    (s.vocabulary ≠ none → s.merge_rank_map ≠ none → s.token_to_id ≠ none →
      s.id_to_token ≠ none → s.next_id ≠ none →
      ∃ tok, load_tokenizer fm s = .ok tok) := by
  obtain ⟨nm, v, m, ti, it, ni⟩ := s
  refine ⟨?_, ?_, ?_, ?_, ?_, ?_⟩ <;> intros <;>
    first
    | · subst_vars
        simp [load_tokenizer]
    | · rename_i h1 h2
        obtain ⟨v', rfl⟩ := Option.ne_none_iff_exists'.mp h1
        subst_vars
        simp [load_tokenizer]
    | · rename_i h1 h2 h3
        obtain ⟨v', rfl⟩ := Option.ne_none_iff_exists'.mp h1
        obtain ⟨m', rfl⟩ := Option.ne_none_iff_exists'.mp h2
        subst_vars
        simp [load_tokenizer]
    | · rename_i h1 h2 h3 h4
        obtain ⟨v', rfl⟩ := Option.ne_none_iff_exists'.mp h1
        obtain ⟨m', rfl⟩ := Option.ne_none_iff_exists'.mp h2
        obtain ⟨ti', rfl⟩ := Option.ne_none_iff_exists'.mp h3
        subst_vars
        simp [load_tokenizer]
    | · rename_i h1 h2 h3 h4 h5
        obtain ⟨v', rfl⟩ := Option.ne_none_iff_exists'.mp h1
        obtain ⟨m', rfl⟩ := Option.ne_none_iff_exists'.mp h2
        obtain ⟨ti', rfl⟩ := Option.ne_none_iff_exists'.mp h3
        obtain ⟨it', rfl⟩ := Option.ne_none_iff_exists'.mp h4
        subst_vars
        simp [load_tokenizer]
    | · rename_i h1 h2 h3 h4 h5
        obtain ⟨v', rfl⟩ := Option.ne_none_iff_exists'.mp h1
        obtain ⟨m', rfl⟩ := Option.ne_none_iff_exists'.mp h2
        obtain ⟨ti', rfl⟩ := Option.ne_none_iff_exists'.mp h3
        obtain ⟨it', rfl⟩ := Option.ne_none_iff_exists'.mp h4
        obtain ⟨ni', rfl⟩ := Option.ne_none_iff_exists'.mp h5
        exact ⟨_, rfl⟩

/-- Counterexample to C7: loading the internally inconsistent state `sBad`
(duplicate IDs and a rank collision) silently succeeds instead of failing,
so load does not fail whenever the representation is inconsistent. -/
theorem C7_counterexample : exceptIsOk (load_tokenizer [] sBad) = true := by
  decide

/-- Witness for C7 at concrete inputs: a state missing `vocabulary` fails
with the corresponding `KeyError`, and a complete state loads successfully. -/
theorem C7_witness :
    load_tokenizer [] sMissing = .error (.keyError "vocabulary") ∧
    ∃ tok, load_tokenizer [] (AmharicTokenizer.init [] 5).save = .ok tok := by
  constructor
  · exact (C7_load_missing_field_errors [] sMissing).1 rfl
  · exact (C7_load_missing_field_errors [] (AmharicTokenizer.init [] 5).save).2.2.2.2.2
      (by decide) (by decide) (by decide) (by decide) (by decide)

/-! Lemmas and theorems for claims C5 and C8: rank and next-ID accounting. -/

theorem trainStep_some_spec {st : TrainSt} {bp : Tok × Tok} {st' : TrainSt}
    (h : trainStep st = some (bp, st')) :
    ∃ cnt, pyMax? st.counts = some (bp, cnt) ∧ ¬cnt < 2 ∧
      st'.tok = addToVocabMaps
        { st.tok with
          merge_rank_map := dictInsert (bp.1 ++ bp.2)
            (st.tok.merge_rank_map.length + 1) st.tok.merge_rank_map
          vocabulary := dictInsert (bp.1 ++ bp.2) cnt st.tok.vocabulary }
        (bp.1 ++ bp.2) := by
  unfold trainStep at h
  split at h
  · exact absurd h (by simp)
  · cases hmax : pyMax? st.counts with
    | none => rw [hmax] at h; exact absurd h (by simp)
    | some bc =>
      obtain ⟨bp', cnt⟩ := bc
      rw [hmax] at h
      simp only at h
      split at h
      · exact absurd h (by simp)
      · rename_i hcnt
        simp only [Option.some_inj, Prod.mk.injEq] at h
        obtain ⟨rfl, rfl⟩ := h
        exact ⟨cnt, rfl, hcnt, rfl⟩

theorem trainStep_fresh_effects {st : TrainSt} {bp : Tok × Tok} {st' : TrainSt}
    (h : trainStep st = some (bp, st'))
    (hfresh : dictGet? st.tok.token_to_id (bp.1 ++ bp.2) = none)
    (hsub : mrmSubT2i st.tok) :
    st'.tok.merge_rank_map = st.tok.merge_rank_map ++
      [(bp.1 ++ bp.2, st.tok.merge_rank_map.length + 1)] ∧
    st'.tok.next_id = st.tok.next_id + 1 ∧
    mrmSubT2i st'.tok := by
  obtain ⟨cnt, hmax, hcnt, htok⟩ := trainStep_some_spec h
  have hmrm_fresh : dictGet? st.tok.merge_rank_map (bp.1 ++ bp.2) = none := by
    cases hm : dictGet? st.tok.merge_rank_map (bp.1 ++ bp.2) with
    | none => rfl
    | some r =>
      have := hsub _ _ hm
      rw [hfresh] at this
      simp at this
  set newTok := bp.1 ++ bp.2 with hnt
  have ht2i1 : ({ st.tok with
      merge_rank_map := dictInsert newTok
        (st.tok.merge_rank_map.length + 1) st.tok.merge_rank_map
      vocabulary := dictInsert newTok cnt st.tok.vocabulary } :
        AmharicTokenizer).token_to_id = st.tok.token_to_id := rfl
  rw [htok]
  unfold addToVocabMaps
  rw [ht2i1, if_pos hfresh]
  refine ⟨?_, rfl, ?_⟩
  · simp only
    exact dictInsert_of_get_none _ hmrm_fresh
  · intro k r hk
    simp only at hk ⊢
    rw [dictGet?_dictInsert] at hk ⊢
    by_cases hkn : newTok = k
    · simp [hkn]
    · rw [if_neg hkn] at hk ⊢
      exact hsub _ _ hk

theorem trainLoop_fresh_all (f : Nat) :
    ∀ st : TrainSt, freshRun f st = true → mrmSubT2i st.tok →
      mrmSubT2i (trainLoop f st).tok ∧
      ((trainLoop f st).tok.next_id + (st.tok.merge_rank_map.length : Int)
        = st.tok.next_id + ((trainLoop f st).tok.merge_rank_map.length : Int)) ∧
      (st.tok.merge_rank_map.map Prod.snd
          = List.range' 1 st.tok.merge_rank_map.length →
        (trainLoop f st).tok.merge_rank_map.map Prod.snd
          = List.range' 1 (trainLoop f st).tok.merge_rank_map.length) := by
  induction f with
  | zero =>
    intro st _ hsub
    exact ⟨hsub, rfl, fun h => h⟩
  | succ f ih =>
    intro st hfr hsub
    cases hs : trainStep st with
    | none =>
      refine ⟨?_, ?_, ?_⟩ <;> simp only [trainLoop, hs]
      · exact hsub
      · exact fun h => h
    | some p =>
      obtain ⟨bp, st'⟩ := p
      simp only [freshRun, hs, Bool.and_eq_true, decide_eq_true_eq] at hfr
      obtain ⟨hfresh, hfr'⟩ := hfr
      obtain ⟨hmrm, hnext, hsub'⟩ := trainStep_fresh_effects hs hfresh hsub
      obtain ⟨rsub, rnext, rranks⟩ := ih st' hfr' hsub'
      simp only [trainLoop, hs]
      refine ⟨rsub, ?_, ?_⟩
      · rw [hmrm, hnext] at rnext
        simp only [List.length_append, List.length_cons, List.length_nil] at rnext
        push_cast at rnext ⊢
        omega
      · intro hst
        refine rranks ?_
        rw [hmrm]
        simp only [List.map_append, List.length_append, List.map_cons,
          List.map_nil, List.length_cons, List.length_nil]
        rw [hst]
        have hrc := @List.range'_concat 1 1 st.tok.merge_rank_map.length
        simp only [Nat.one_mul] at hrc
        rw [show st.tok.merge_rank_map.length + (0 + 1)
              = st.tok.merge_rank_map.length + 1 from rfl, hrc,
          Nat.add_comm 1 st.tok.merge_rank_map.length]

theorem init_merge_rank_map (fm : List (Char × List Char)) (nm : Nat) :
    (AmharicTokenizer.init fm nm).merge_rank_map = [] := by
  unfold AmharicTokenizer.init
  have aux : ∀ (l : List Tok) (t0 : AmharicTokenizer),
      (l.foldl (fun tok t =>
        addToVocabMaps { tok with vocabulary := dictInsert t 0 tok.vocabulary } t)
        t0).merge_rank_map = t0.merge_rank_map := by
    intro l
    induction l with
    | nil => intro t0; rfl
    | cons x xs ih =>
      intro t0
      rw [List.foldl_cons, ih, addToVocabMaps_merge_rank_map]
  exact aux _ _

theorem init_next_id_registry (fm : List (Char × List Char)) (nm : Nat) :
    (AmharicTokenizer.init fm nm).next_id
      = ((AmharicTokenizer.init fm nm).token_to_id.length : Int) := by
  unfold AmharicTokenizer.init
  have aux : ∀ (l : List Tok) (t0 : AmharicTokenizer),
      t0.next_id = (t0.token_to_id.length : Int) →
      (l.foldl (fun tok t =>
        addToVocabMaps { tok with vocabulary := dictInsert t 0 tok.vocabulary } t)
        t0).next_id =
        ((l.foldl (fun tok t =>
          addToVocabMaps { tok with vocabulary := dictInsert t 0 tok.vocabulary } t)
          t0).token_to_id.length : Int) := by
    intro l
    induction l with
    | nil => intro t0 h; exact h
    | cons x xs ih =>
      intro t0 h
      rw [List.foldl_cons]
      refine ih _ ?_
      unfold addToVocabMaps
      by_cases hx : dictGet? ({ t0 with
          vocabulary := dictInsert x 0 t0.vocabulary } :
            AmharicTokenizer).token_to_id x = none
      · rw [if_pos hx]
        simp only
        rw [dictInsert_of_get_none _ hx]
        simp only [List.length_append, List.length_cons, List.length_nil]
        push_cast
        omega
      · rw [if_neg hx]
        exact h
  exact aux _ _ rfl

/-- C5 (amended): within a single training run in which every learned
merge's concatenation is a token not yet in the ID registry (freshness), the
ranks stored in the merge-rank map are exactly `1, 2, …, k` in learning
order — globally unique and strictly increasing, with none reassigned.
Without freshness (e.g. a second `train` call re-learning an existing
token), the code reassigns `len(map)+1` to the existing key and ranks can
collide — see the counterexample. -/
theorem C5_rank_uniqueness_amended (fm : List (Char × List Char)) (nm : Nat)
    (corpus : List Char)
    (H : trainFresh fm (AmharicTokenizer.init fm nm) corpus = true) :
    (train fm (AmharicTokenizer.init fm nm) corpus).merge_rank_map.map Prod.snd
      = List.range' 1
          (train fm (AmharicTokenizer.init fm nm) corpus).merge_rank_map.length := by
  unfold train
  unfold trainFresh at H
  have hsub : mrmSubT2i (AmharicTokenizer.init fm nm) := by
    intro k r hk
    rw [init_merge_rank_map] at hk
    exact absurd hk (by simp [dictGet?])
  have h := trainLoop_fresh_all (AmharicTokenizer.init fm nm).num_merges
    ⟨AmharicTokenizer.init fm nm, preprocess fm corpus,
      initCounts (preprocess fm corpus)⟩ H hsub
  refine h.2.2 ?_
  show (AmharicTokenizer.init fm nm).merge_rank_map.map Prod.snd
    = List.range' 1 (AmharicTokenizer.init fm nm).merge_rank_map.length
  rw [init_merge_rank_map]
  rfl

/-- Counterexample to C5: training twice on the corpus `"aa aa"` is a
reachable lifecycle; the second run re-learns the tokens `"aa"` and
`"aa<eow>"`, reassigning the rank of `"aa"` from 1 to 3 and leaving both
tokens with the colliding rank 3 — ranks are neither stable nor globally
unique. -/
theorem C5_counterexample :
    dictGet? (train [] (AmharicTokenizer.init [] 10) corpusAA).merge_rank_map
      ['a', 'a'] = some 1 ∧
    dictGet? (train [] (train [] (AmharicTokenizer.init [] 10) corpusAA)
      corpusAA).merge_rank_map ['a', 'a'] = some 3 ∧
    dictGet? (train [] (train [] (AmharicTokenizer.init [] 10) corpusAA)
      corpusAA).merge_rank_map (['a', 'a'] ++ eowStr) = some 3 := by
  decide

/-- Witness for the amended C5 at concrete inputs: the first run on
`"aa aa"` is fresh and its learned ranks are exactly `[1, 2]`. -/
theorem C5_witness :
    trainFresh [] (AmharicTokenizer.init [] 10) corpusAA = true ∧
    (train [] (AmharicTokenizer.init [] 10) corpusAA).merge_rank_map.map Prod.snd
      = List.range' 1
          (train [] (AmharicTokenizer.init [] 10) corpusAA).merge_rank_map.length :=
  ⟨by decide, C5_rank_uniqueness_amended [] 10 corpusAA (by decide)⟩

/-- C8: under the claim's hypothesis that no learned merge's target token
previously existed in the registry (freshness, which also rules out merges
re-registering the unknown marker), after `k` merges the next-ID counter
equals the bootstrap vocabulary size plus `k`; and at construction the
next-ID counter equals the bootstrap vocabulary size. -/
theorem C8_next_id_bootstrap_plus_k (fm : List (Char × List Char)) (nm : Nat)
    (corpus : List Char)
    (H : trainFresh fm (AmharicTokenizer.init fm nm) corpus = true) :
    (train fm (AmharicTokenizer.init fm nm) corpus).next_id
      = ((AmharicTokenizer.init fm nm).token_to_id.length : Int)
        + ((train fm (AmharicTokenizer.init fm nm) corpus).merge_rank_map.length :
            Int) ∧
    (AmharicTokenizer.init fm nm).next_id
      = ((AmharicTokenizer.init fm nm).token_to_id.length : Int) := by
  refine ⟨?_, init_next_id_registry fm nm⟩
  have htr : train fm (AmharicTokenizer.init fm nm) corpus
      = (trainLoop (AmharicTokenizer.init fm nm).num_merges
          ⟨AmharicTokenizer.init fm nm, preprocess fm corpus,
            initCounts (preprocess fm corpus)⟩).tok := rfl
  rw [htr]
  unfold trainFresh at H
  have hsub : mrmSubT2i (AmharicTokenizer.init fm nm) := by
    intro k r hk
    rw [init_merge_rank_map] at hk
    exact absurd hk (by simp [dictGet?])
  have h := (trainLoop_fresh_all (AmharicTokenizer.init fm nm).num_merges
    ⟨AmharicTokenizer.init fm nm, preprocess fm corpus,
      initCounts (preprocess fm corpus)⟩ H hsub).2.1
  have hzero : ((⟨AmharicTokenizer.init fm nm, preprocess fm corpus,
      initCounts (preprocess fm corpus)⟩ : TrainSt).tok.merge_rank_map.length :
        Int) = 0 := by
    show ((AmharicTokenizer.init fm nm).merge_rank_map.length : Int) = 0
    rw [init_merge_rank_map]
    rfl
  rw [hzero] at h
  have hred : (⟨AmharicTokenizer.init fm nm, preprocess fm corpus,
      initCounts (preprocess fm corpus)⟩ : TrainSt).tok.next_id
      = (AmharicTokenizer.init fm nm).next_id := rfl
  rw [hred] at h
  have hni := init_next_id_registry fm nm
  omega

/-- Witness for C8 at concrete inputs: one fresh run on `"aa aa"` with the
empty table learns 2 merges, and the next-ID counter moves from the
bootstrap size 1 to 3. -/
theorem C8_witness :
    trainFresh [] (AmharicTokenizer.init [] 10) corpusAA = true ∧
    (train [] (AmharicTokenizer.init [] 10) corpusAA).next_id
      = ((AmharicTokenizer.init [] 10).token_to_id.length : Int)
        + ((train [] (AmharicTokenizer.init [] 10) corpusAA).merge_rank_map.length :
            Int) :=
  ⟨by decide, (C8_next_id_bootstrap_plus_k [] 10 corpusAA (by decide)).1⟩

/-! Lemmas and theorems for claim C6: the bootstrap vocabulary invariant. -/

theorem mem_insLe {x y : Tok} {l : List Tok} :
    y ∈ insLe x l ↔ y = x ∨ y ∈ l := by
  induction l with
  | nil => simp [insLe]
  | cons z t ih =>
    simp only [insLe]
    split
    · simp [or_comm, or_assoc, or_left_comm]
    · simp only [List.mem_cons, ih]
      tauto

theorem mem_insSort {y : Tok} {l : List Tok} : y ∈ insSort l ↔ y ∈ l := by
  induction l with
  | nil => simp [insSort]
  | cons x t ih => simp [insSort, mem_insLe, ih]

theorem mem_dedupChars {x : Char} {l : List Char} :
    x ∈ dedupChars l ↔ x ∈ l := by
  have aux : ∀ (l : List Char) (acc : List Char),
      x ∈ l.foldl (fun acc c => if c ∈ acc then acc else acc ++ [c]) acc ↔
        x ∈ acc ∨ x ∈ l := by
    intro l
    induction l with
    | nil => simp
    | cons c t ih =>
      intro acc
      rw [List.foldl_cons]
      by_cases hc : c ∈ acc
      · rw [if_pos hc, ih]
        constructor
        · rintro (h | h)
          · exact Or.inl h
          · exact Or.inr (List.mem_cons_of_mem _ h)
        · rintro (h | h)
          · exact Or.inl h
          · rcases List.mem_cons.mp h with rfl | h
            · exact Or.inl hc
            · exact Or.inr h
      · rw [if_neg hc, ih]
        simp only [List.mem_append, List.mem_singleton, List.mem_cons]
        tauto
  unfold dedupChars
  rw [aux l []]
  simp

theorem init_vocab_key_of_mem {fm : List (Char × List Char)} {nm : Nat}
    {t : Tok} (h : t ∈ bootstrapToks fm) :
    (dictGet? (AmharicTokenizer.init fm nm).vocabulary t).isSome = true := by
  unfold AmharicTokenizer.init
  have aux : ∀ (l : List Tok) (t0 : AmharicTokenizer),
      (t ∈ l ∨ (dictGet? t0.vocabulary t).isSome = true) →
      (dictGet? (l.foldl (fun tok t =>
        addToVocabMaps { tok with vocabulary := dictInsert t 0 tok.vocabulary } t)
        t0).vocabulary t).isSome = true := by
    intro l
    induction l with
    | nil =>
      intro t0 h0
      rcases h0 with h0 | h0
      · simp at h0
      · exact h0
    | cons x xs ih =>
      intro t0 h0
      rw [List.foldl_cons]
      refine ih _ ?_
      rcases h0 with h0 | h0
      · rcases List.mem_cons.mp h0 with rfl | h0
        · right
          rw [addToVocabMaps_vocabulary]
          simp only
          rw [dictGet?_dictInsert]
          simp
        · exact Or.inl h0
      · right
        rw [addToVocabMaps_vocabulary]
        simp only
        rw [dictGet?_dictInsert]
        split <;> simp [h0]
  exact aux _ _ (Or.inl h)

theorem init_vocab_key_only_of_mem {fm : List (Char × List Char)} {nm : Nat}
    {t : Tok} (h : t ∉ bootstrapToks fm) :
    dictGet? (AmharicTokenizer.init fm nm).vocabulary t = none := by
  unfold AmharicTokenizer.init
  have aux : ∀ (l : List Tok) (t0 : AmharicTokenizer),
      t ∉ l → dictGet? t0.vocabulary t = none →
      dictGet? (l.foldl (fun tok t =>
        addToVocabMaps { tok with vocabulary := dictInsert t 0 tok.vocabulary } t)
        t0).vocabulary t = none := by
    intro l
    induction l with
    | nil => intro t0 _ h0; exact h0
    | cons x xs ih =>
      intro t0 hnm h0
      rw [List.foldl_cons]
      refine ih _ (fun hx => hnm (List.mem_cons_of_mem _ hx)) ?_
      rw [addToVocabMaps_vocabulary]
      simp only
      rw [dictGet?_dictInsert]
      have hxt : ¬x = t := fun hx => hnm (by simp [hx])
      rw [if_neg hxt]
      exact h0
  exact aux _ _ h (by simp [dictGet?])

theorem unkTok_not_bootstrap (fm : List (Char × List Char)) :
    unkTok ∉ bootstrapToks fm := by
  intro h
  rw [bootstrapToks, mem_insSort, List.mem_append] at h
  rcases h with h | h
  · rcases List.mem_map.mp h with ⟨u, _, hu⟩
    have := congrArg List.length hu
    simp [unkTok] at this
  · simp only [List.mem_singleton] at h
    have := congrArg (fun l => l.get? 1) h
    simp [unkTok, eowTok, eowStr] at this

theorem train_preserves_vocab_key (fm : List (Char × List Char))
    (tok : AmharicTokenizer) (corpus : List Char) (k : Tok)
    (h : (dictGet? tok.vocabulary k).isSome = true) :
    (dictGet? (train fm tok corpus).vocabulary k).isSome = true := by
  unfold train
  have aux : ∀ (f : Nat) (st : TrainSt),
      (dictGet? st.tok.vocabulary k).isSome = true →
      (dictGet? (trainLoop f st).tok.vocabulary k).isSome = true := by
    intro f
    induction f with
    | zero => intro st h0; exact h0
    | succ f ih =>
      intro st h0
      cases hs : trainStep st with
      | none => simp only [trainLoop, hs]; exact h0
      | some p =>
        obtain ⟨bp, st'⟩ := p
        simp only [trainLoop, hs]
        refine ih st' ?_
        obtain ⟨cnt, _, _, htok⟩ := trainStep_some_spec hs
        rw [htok, addToVocabMaps_vocabulary]
        simp only
        rw [dictGet?_dictInsert]
        split <;> simp [h0]
  exact aux _ _ h

/-- C6 (amended): at construction the vocabulary contains every base unit
appearing in the decomposition table's values and the end-of-word marker,
and training never removes a vocabulary key, so these remain present through
any amount of training; the unknown marker, however, is absent at
construction — the bootstrap consists only of single-character unit tokens
plus the end-of-word marker, and `"<unk>"` is neither.  (Nothing more is
claimed about `"<unk>"` later in the lifecycle: a training run over text
containing the literal characters `<`, `u`, `n`, `k`, `>` can learn a merge
whose concatenation is `"<unk>"` and thereby add it.) -/
theorem C6_vocab_bootstrap_invariant (fm : List (Char × List Char)) (nm : Nat)
    (corpus : List Char) (tok : AmharicTokenizer) :
    (∀ u ∈ unitChars fm,
      (dictGet? (AmharicTokenizer.init fm nm).vocabulary [u]).isSome = true) ∧
    ((dictGet? (AmharicTokenizer.init fm nm).vocabulary eowTok).isSome = true) ∧
    (∀ k, (dictGet? tok.vocabulary k).isSome = true →
      (dictGet? (train fm tok corpus).vocabulary k).isSome = true) ∧
    dictGet? (AmharicTokenizer.init fm nm).vocabulary unkTok = none := by
  refine ⟨?_, ?_, ?_, ?_⟩
  · intro u hu
    refine init_vocab_key_of_mem ?_
    rw [bootstrapToks, mem_insSort, List.mem_append]
    exact Or.inl (List.mem_map.mpr ⟨u, mem_dedupChars.mpr hu, rfl⟩)
  · refine init_vocab_key_of_mem ?_
    rw [bootstrapToks, mem_insSort, List.mem_append]
    simp
  · exact fun k => train_preserves_vocab_key fm tok corpus k
  · exact init_vocab_key_only_of_mem (unkTok_not_bootstrap fm)

/-- Counterexample to C6: at construction over a concrete table the
vocabulary does not contain the unknown marker, contradicting the claim
that it is present at every point of the lifecycle. -/
theorem C6_counterexample :
    dictGet? (AmharicTokenizer.init fmWitness 10).vocabulary unkTok = none := by
  decide

/-- Witness for the amended C6 at concrete inputs: base unit `'a'` and the
end-of-word marker are present after construction, and remain present after
a training run. -/
theorem C6_witness :
    (dictGet? (AmharicTokenizer.init fmWitness 3).vocabulary ['a']).isSome
      = true ∧
    (dictGet? (train fmWitness (AmharicTokenizer.init fmWitness 3)
      ['A', 'B']).vocabulary eowTok).isSome = true := by
  constructor
  · exact (C6_vocab_bootstrap_invariant fmWitness 3 ['A', 'B']
      (AmharicTokenizer.init fmWitness 3)).1 'a' (by decide)
  · exact (C6_vocab_bootstrap_invariant fmWitness 3 ['A', 'B']
      (AmharicTokenizer.init fmWitness 3)).2.2.1 eowTok (by decide)

/-! Lemmas and theorems for claim C9: encode/decode versus
tokenize/detokenize. -/

theorem addToVocabMaps_registry {tok : AmharicTokenizer} (t : Tok)
    (h1 : registryInv tok) (h2 : registryBound tok) :
    registryInv (addToVocabMaps tok t) ∧ registryBound (addToVocabMaps tok t) := by
  unfold addToVocabMaps
  split
  · rename_i hfresh
    constructor
    · intro t' i ht'
      simp only at ht' ⊢
      rw [dictGet?_dictInsert] at ht'
      rw [dictGet?_dictInsert]
      by_cases htt : t = t'
      · rw [if_pos htt] at ht'
        obtain rfl : tok.next_id = i := Option.some_inj.mp ht'
        rw [if_pos rfl]
        rw [htt]
      · rw [if_neg htt] at ht'
        have hback := h1 t' i ht'
        have hlt : i < tok.next_id := h2 i (by simp [hback])
        rw [if_neg (by omega)]
        exact hback
    · intro i hi
      simp only at hi ⊢
      rw [dictGet?_dictInsert] at hi
      by_cases hni : tok.next_id = i
      · omega
      · rw [if_neg hni] at hi
        have := h2 i hi
        omega
  · exact ⟨h1, h2⟩

theorem init_registry (fm : List (Char × List Char)) (nm : Nat) :
    registryInv (AmharicTokenizer.init fm nm) ∧
      registryBound (AmharicTokenizer.init fm nm) := by
  unfold AmharicTokenizer.init
  have aux : ∀ (l : List Tok) (t0 : AmharicTokenizer),
      registryInv t0 → registryBound t0 →
      registryInv (l.foldl (fun tok t =>
        addToVocabMaps { tok with vocabulary := dictInsert t 0 tok.vocabulary } t)
        t0) ∧
      registryBound (l.foldl (fun tok t =>
        addToVocabMaps { tok with vocabulary := dictInsert t 0 tok.vocabulary } t)
        t0) := by
    intro l
    induction l with
    | nil => intro t0 h1 h2; exact ⟨h1, h2⟩
    | cons x xs ih =>
      intro t0 h1 h2
      rw [List.foldl_cons]
      have hstep := @addToVocabMaps_registry
        { t0 with vocabulary := dictInsert x 0 t0.vocabulary } x h1 h2
      exact ih _ hstep.1 hstep.2
  exact aux _ _ (fun t i h => absurd h (by simp [dictGet?]))
    (fun i h => absurd h (by simp [dictGet?]))

theorem train_registry (fm : List (Char × List Char)) (tok : AmharicTokenizer)
    (corpus : List Char) (h1 : registryInv tok) (h2 : registryBound tok) :
    registryInv (train fm tok corpus) ∧ registryBound (train fm tok corpus) := by
  unfold train
  have aux : ∀ (f : Nat) (st : TrainSt),
      registryInv st.tok → registryBound st.tok →
      registryInv (trainLoop f st).tok ∧ registryBound (trainLoop f st).tok := by
    intro f
    induction f with
    | zero => intro st g1 g2; exact ⟨g1, g2⟩
    | succ f ih =>
      intro st g1 g2
      cases hs : trainStep st with
      | none => simp only [trainLoop, hs]; exact ⟨g1, g2⟩
      | some p =>
        obtain ⟨bp, st'⟩ := p
        simp only [trainLoop, hs]
        obtain ⟨cnt, _, _, htok⟩ := trainStep_some_spec hs
        have hstep := @addToVocabMaps_registry
          { st.tok with
            merge_rank_map := dictInsert (bp.1 ++ bp.2)
              (st.tok.merge_rank_map.length + 1) st.tok.merge_rank_map
            vocabulary := dictInsert (bp.1 ++ bp.2) cnt st.tok.vocabulary }
          (bp.1 ++ bp.2) g1 g2
        rw [← htok] at hstep
        exact ih st' hstep.1 hstep.2
  exact aux _ _ h1 h2

theorem map_id_of_mem {α : Type} {l : List α} {f : α → α}
    (h : ∀ x ∈ l, f x = x) : l.map f = l := by
  induction l with
  | nil => rfl
  | cons x t ih =>
    rw [List.map_cons, h x (List.mem_cons_self _ _),
      ih (fun y hy => h y (List.mem_cons_of_mem _ hy))]

/-- C9 (amended): for a tokenizer obtained by construction plus training on
any corpus, and any text all of whose tokens are registered (no unknown
tokens involved), `decode (encode text) = detokenize (tokenize text)`; for
texts producing out-of-vocabulary literal tokens the two sides differ — see
the counterexample. -/
theorem C9_encode_decode_agree (fm : List (Char × List Char))
    (rfm : List (List Char × Char)) (nm : Nat) (corpus text : List Char)
    (H : ∀ t ∈ tokenize fm (train fm (AmharicTokenizer.init fm nm) corpus) text,
      (dictGet? (train fm (AmharicTokenizer.init fm nm) corpus).token_to_id
        t).isSome = true) :
    decode rfm (train fm (AmharicTokenizer.init fm nm) corpus)
      (encode fm (train fm (AmharicTokenizer.init fm nm) corpus) text)
      = detokenize rfm
          (tokenize fm (train fm (AmharicTokenizer.init fm nm) corpus) text) := by
  have hinit := init_registry fm nm
  have hreg := train_registry fm (AmharicTokenizer.init fm nm) corpus
    hinit.1 hinit.2
  unfold decode encode
  rw [List.map_map]
  refine congrArg (detokenize rfm) (map_id_of_mem ?_)
  intro t ht
  have hsome := H t ht
  rcases Option.isSome_iff_exists.mp hsome with ⟨i, hi⟩
  have hback := hreg.1 t i hi
  simp [Function.comp, hi, hback]

/-- Counterexample to C9 as stated for every input: on the out-of-vocabulary
text `"Q"`, encode maps the literal token to the sentinel `-1`, decode turns
it into `"<unk>"`, and the two sides differ (`"<unk>"` versus `"Q"`). -/
theorem C9_counterexample :
    decode [] tokC9 (encode [] tokC9 ['Q'])
      ≠ detokenize [] (tokenize [] tokC9 ['Q']) := by
  decide

/-- Witness for the amended C9 at concrete inputs: on the in-vocabulary text
`"A"` every token is registered and both sides agree. -/
theorem C9_witness :
    (∀ t ∈ tokenize fmWitness
        (train fmWitness (AmharicTokenizer.init fmWitness 10) ['A']) ['A'],
      (dictGet? (train fmWitness (AmharicTokenizer.init fmWitness 10)
        ['A']).token_to_id t).isSome = true) ∧
    decode rfmWitness (train fmWitness (AmharicTokenizer.init fmWitness 10) ['A'])
      (encode fmWitness
        (train fmWitness (AmharicTokenizer.init fmWitness 10) ['A']) ['A'])
      = detokenize rfmWitness
          (tokenize fmWitness
            (train fmWitness (AmharicTokenizer.init fmWitness 10) ['A']) ['A']) :=
  ⟨by decide, C9_encode_decode_agree fmWitness rfmWitness 10 ['A'] ['A'] (by decide)⟩

/-! Lemmas for claim C2: round-trip after bootstrap-only training. -/

theorem getBestMerge_nil_mm (c : List (List Tok)) : getBestMerge [] c = none := by
  rw [getBestMerge_eq_foldl]
  have hc : candList [] c = [] := by
    unfold candList
    refine List.filterMap_eq_nil_iff.mpr ?_
    intro pr _
    rfl
  rw [hc]
  rfl

theorem tokenizeLoop_nil_mm (f : Nat) (c : List (List Tok)) :
    tokenizeLoop [] f c = c := by
  cases f with
  | zero => rfl
  | succ f => simp only [tokenizeLoop, getBestMerge_nil_mm]

theorem splitWsAux_word (w : List Char) :
    ∀ (cur rest : List Char), (∀ c ∈ w, c.isWhitespace = false) →
      splitWsAux cur (w ++ rest) = splitWsAux (w.reverse ++ cur) rest := by
  induction w with
  | nil => intro cur rest _; simp
  | cons c t ih =>
    intro cur rest hw
    rw [List.cons_append]
    show splitWsAux cur (c :: (t ++ rest)) = _
    rw [splitWsAux]
    rw [hw c (List.mem_cons_self _ _)]
    simp only [Bool.false_eq_true, if_false]
    rw [ih (c :: cur) rest (fun x hx => hw x (List.mem_cons_of_mem _ hx))]
    simp

theorem splitWsAux_space (cur rest : List Char) :
    splitWsAux cur (' ' :: rest) =
      if cur = [] then splitWsAux [] rest
      else cur.reverse :: splitWsAux [] rest := by
  rw [splitWsAux]
  simp

theorem splitWs_word_space (w rest : List Char) (hne : w ≠ [])
    (hw : ∀ c ∈ w, c.isWhitespace = false) :
    splitWs (w ++ ' ' :: rest) = w :: splitWs rest := by
  unfold splitWs
  rw [splitWsAux_word w [] (' ' :: rest) hw, List.append_nil, splitWsAux_space]
  rw [if_neg (by simpa using hne)]
  simp

theorem splitWs_single_word (w : List Char) (hne : w ≠ [])
    (hw : ∀ c ∈ w, c.isWhitespace = false) : splitWs w = [w] := by
  unfold splitWs
  have h := splitWsAux_word w [] [] hw
  rw [List.append_nil] at h
  rw [h, splitWsAux]
  rw [if_neg (by simpa using hne)]
  simp

theorem splitWs_joinSpace (ws : List (List Char))
    (h : ∀ w ∈ ws, w ≠ [] ∧ ∀ c ∈ w, c.isWhitespace = false) :
    splitWs (joinSpace ws) = ws := by
  induction ws with
  | nil => rfl
  | cons w t ih =>
    cases t with
    | nil =>
      show splitWs (joinSpace [w]) = [w]
      rw [joinSpace]
      exact splitWs_single_word w (h w (by simp)).1 (h w (by simp)).2
    | cons w' t' =>
      show splitWs (w ++ ' ' :: joinSpace (w' :: t')) = _
      rw [splitWs_word_space _ _ (h w (by simp)).1 (h w (by simp)).2]
      rw [ih (fun x hx => h x (List.mem_cons_of_mem _ hx))]

theorem splitWs_trailing (l : List (List Char))
    (h : ∀ w ∈ l, w ≠ [] ∧ ∀ c ∈ w, c.isWhitespace = false) :
    splitWs ((l.map (fun w => w ++ [' '])).flatten) = l := by
  induction l with
  | nil => rfl
  | cons w t ih =>
    rw [List.map_cons, List.flatten_cons, List.append_assoc,
      List.singleton_append]
    rw [splitWs_word_space _ _ (h w (by simp)).1 (h w (by simp)).2]
    rw [ih (fun x hx => h x (List.mem_cons_of_mem _ hx))]

theorem flatten_map_singleton (us : List Char) :
    (us.map (fun u => [u])).flatten = us := by
  induction us with
  | nil => rfl
  | cons u t ih => simp [ih]

theorem flatten_unit_toks (fm : List (Char × List Char)) (w : List Char) :
    ((w.flatMap fun c =>
      match dictGet? fm c with
      | some us => us.map (fun u => [u])
      | none => [[c]]).flatten : List Char) = unitsOf fm w := by
  induction w with
  | nil => rfl
  | cons c t ih =>
    rw [List.flatMap_cons, List.flatten_append, ih]
    unfold unitsOf
    rw [List.flatMap_cons]
    congr 1
    cases hc : dictGet? fm c with
    | none => simp
    | some us => simp [flatten_map_singleton]

theorem flatten_preprocessWord (fm : List (Char × List Char)) (w : List Char) :
    (preprocessWord fm w).flatten = unitsOf fm w ++ eowStr := by
  unfold preprocessWord
  rw [List.flatten_append, flatten_unit_toks]
  simp [eowTok]

theorem stream_of_words (fm : List (Char × List Char)) (ws : List (List Char)) :
    (((ws.map (preprocessWord fm)).flatten).flatten : List Char)
      = ((ws.map (unitsOf fm)).map (fun u => u ++ eowStr)).flatten := by
  induction ws with
  | nil => rfl
  | cons w t ih =>
    simp only [List.map_cons, List.flatten_cons, List.flatten_append]
    rw [flatten_preprocessWord, ih]

theorem replaceEow_marker (rest : List Char) :
    replaceEow (eowStr ++ rest) = ' ' :: replaceEow rest := rfl

theorem replaceEow_cons_ne {u : Char} (s : List Char) (h : u ≠ '<') :
    replaceEow (u :: s) = u :: replaceEow s := by
  rw [replaceEow.eq_def]
  split
  · rename_i heq
    exact absurd (List.head_eq_of_cons_eq heq.symm).symm h
  · rename_i heq
    injection heq with h1 h2
    rw [h1, h2]
  · rename_i heq
    exact absurd heq (by simp)

theorem replaceEow_units (us s : List Char) (h : ∀ u ∈ us, u ≠ '<') :
    replaceEow (us ++ s) = us ++ replaceEow s := by
  induction us with
  | nil => rfl
  | cons u t ih =>
    rw [List.cons_append, replaceEow_cons_ne _ (h u (List.mem_cons_self _ _)),
      ih (fun x hx => h x (List.mem_cons_of_mem _ hx))]
    rfl

theorem replaceEow_stream (l : List (List Char))
    (h : ∀ w ∈ l, ∀ u ∈ w, u ≠ '<') :
    replaceEow ((l.map (fun u => u ++ eowStr)).flatten)
      = (l.map (fun u => u ++ [' '])).flatten := by
  induction l with
  | nil => rfl
  | cons w t ih =>
    simp only [List.map_cons, List.flatten_cons]
    rw [List.append_assoc, replaceEow_units _ _ (h w (by simp)),
      replaceEow_marker, ih (fun x hx => h x (List.mem_cons_of_mem _ hx))]
    simp

theorem isPrefixOf_append_self (us e : List Char) :
    us.isPrefixOf (us ++ e) = true := by
  induction us with
  | nil => simp [List.isPrefixOf]
  | cons a t ih => simp [List.isPrefixOf, ih]

theorem rfm_no_extended_key {fm : List (Char × List Char)}
    {rfm : List (List Char × Char)} {c : Char} {us : List Char}
    (Hkeys : ∀ q ∈ rfm, ∃ p ∈ fm, p.2 = q.1)
    (Hpre : ∀ p ∈ fm, ∀ p' ∈ fm, p.2.isPrefixOf p'.2 = true → p.2 = p'.2)
    (hmem : (c, us) ∈ fm) (e : List Char) (he : e ≠ []) :
    dictGet? rfm (us ++ e) = none := by
  cases hl : dictGet? rfm (us ++ e) with
  | none => rfl
  | some g =>
    exfalso
    have hq := dictGet?_mem hl
    obtain ⟨p', hp', hval⟩ := Hkeys _ hq
    have hpre := Hpre (c, us) hmem p' hp'
    rw [hval] at hpre
    have heq : us = us ++ e := hpre (isPrefixOf_append_self us e)
    have hlen := congrArg List.length heq
    rw [List.length_append] at hlen
    have : e.length = 0 := by omega
    exact he (List.length_eq_zero.mp this)

theorem reconFuel_nil (rfm : List (List Char × Char)) (f : Nat) :
    reconFuel rfm f [] = [] := by
  cases f <;> rfl

theorem reconFuel_step {rfm : List (List Char × Char)} {c : Char}
    {us : List Char} (f : Nat) (rest : List Char)
    (hne : us ≠ []) (hlen : us.length ≤ 3)
    (hlook : dictGet? rfm us = some c)
    (hK : ∀ e, e ≠ [] → dictGet? rfm (us ++ e) = none) :
    reconFuel rfm (f + 1) (us ++ rest) = c :: reconFuel rfm f rest := by
  rcases us with _ | ⟨u1, _ | ⟨u2, _ | ⟨u3, _ | ⟨u4, tl⟩⟩⟩⟩
  · exact absurd rfl hne
  · cases rest with
    | nil => simp [reconFuel, hlook, reconFuel_nil]
    | cons r rs =>
      cases rs with
      | nil =>
        have h2 : dictGet? rfm [u1, r] = none := by
          simpa using hK [r] (by simp)
        simp [reconFuel, h2, hlook]
      | cons r2 rs2 =>
        have h3 : dictGet? rfm [u1, r, r2] = none := by
          simpa using hK [r, r2] (by simp)
        have h2 : dictGet? rfm [u1, r] = none := by
          simpa using hK [r] (by simp)
        simp [reconFuel, h3, h2, hlook]
  · cases rest with
    | nil => simp [reconFuel, hlook, reconFuel_nil]
    | cons r rs =>
      have h3 : dictGet? rfm [u1, u2, r] = none := by
        simpa using hK [r] (by simp)
      simp [reconFuel, h3, hlook]
  · cases rest with
    | nil => simp [reconFuel, hlook, reconFuel_nil]
    | cons r rs => simp [reconFuel, hlook]
  · simp at hlen

theorem reconFuel_units {fm : List (Char × List Char)}
    {rfm : List (List Char × Char)}
    (Hne : ∀ p ∈ fm, p.2 ≠ [])
    (Hlen : ∀ p ∈ fm, p.2.length ≤ 3)
    (Hrev : ∀ p ∈ fm, dictGet? rfm p.2 = some p.1)
    (Hkeys : ∀ q ∈ rfm, ∃ p ∈ fm, p.2 = q.1)
    (Hpre : ∀ p ∈ fm, ∀ p' ∈ fm, p.2.isPrefixOf p'.2 = true → p.2 = p'.2)
    (w : List Char) (hdom : ∀ c ∈ w, (dictGet? fm c).isSome = true) :
    ∀ f, w.length ≤ f → reconFuel rfm f (unitsOf fm w) = w := by
  induction w with
  | nil =>
    intro f _
    show reconFuel rfm f [] = []
    exact reconFuel_nil rfm f
  | cons c t ih =>
    intro f hf
    cases f with
    | zero => simp at hf
    | succ f =>
      obtain ⟨us, hus⟩ := Option.isSome_iff_exists.mp
        (hdom c (List.mem_cons_self _ _))
      have hmem := dictGet?_mem hus
      have hsplit : unitsOf fm (c :: t) = us ++ unitsOf fm t := by
        unfold unitsOf
        rw [List.flatMap_cons, hus]
        rfl
      rw [hsplit, reconFuel_step f (unitsOf fm t) (Hne _ hmem) (Hlen _ hmem)
        (Hrev _ hmem) (fun e he => rfm_no_extended_key Hkeys Hpre hmem e he)]
      rw [ih (fun x hx => hdom x (List.mem_cons_of_mem _ hx)) f
        (by simp at hf; omega)]

theorem unitsOf_length_ge {fm : List (Char × List Char)}
    (Hne : ∀ p ∈ fm, p.2 ≠ []) (w : List Char)
    (hdom : ∀ c ∈ w, (dictGet? fm c).isSome = true) :
    w.length ≤ (unitsOf fm w).length := by
  induction w with
  | nil => simp [unitsOf]
  | cons c t ih =>
    obtain ⟨us, hus⟩ := Option.isSome_iff_exists.mp
      (hdom c (List.mem_cons_self _ _))
    have hmem := dictGet?_mem hus
    have hsplit : unitsOf fm (c :: t) = us ++ unitsOf fm t := by
      unfold unitsOf
      rw [List.flatMap_cons, hus]
      rfl
    rw [hsplit]
    have h1 : 1 ≤ us.length := by
      have := Hne _ hmem
      cases us with
      | nil => exact absurd rfl this
      | cons a b => simp
    have h2 := ih (fun x hx => hdom x (List.mem_cons_of_mem _ hx))
    simp only [List.length_cons, List.length_append]
    omega

theorem reconWord_units {fm : List (Char × List Char)}
    {rfm : List (List Char × Char)}
    (Hne : ∀ p ∈ fm, p.2 ≠ [])
    (Hlen : ∀ p ∈ fm, p.2.length ≤ 3)
    (Hrev : ∀ p ∈ fm, dictGet? rfm p.2 = some p.1)
    (Hkeys : ∀ q ∈ rfm, ∃ p ∈ fm, p.2 = q.1)
    (Hpre : ∀ p ∈ fm, ∀ p' ∈ fm, p.2.isPrefixOf p'.2 = true → p.2 = p'.2)
    (w : List Char) (hdom : ∀ c ∈ w, (dictGet? fm c).isSome = true) :
    reconWord rfm (unitsOf fm w) = w := by
  unfold reconWord
  exact reconFuel_units Hne Hlen Hrev Hkeys Hpre w hdom _
    (unitsOf_length_ge Hne w hdom)

theorem mem_unitsOf_table {fm : List (Char × List Char)} {w : List Char}
    (hdom : ∀ c ∈ w, (dictGet? fm c).isSome = true) {x : Char}
    (hx : x ∈ unitsOf fm w) : ∃ p ∈ fm, x ∈ p.2 := by
  unfold unitsOf at hx
  rcases List.mem_flatMap.mp hx with ⟨c, hc, hxin⟩
  obtain ⟨us, hus⟩ := Option.isSome_iff_exists.mp (hdom c hc)
  rw [hus] at hxin
  exact ⟨(c, us), dictGet?_mem hus, hxin⟩

/-- C2 (amended): for a bootstrap-only tokenizer (no merges learned) over a
decomposition table satisfying the table contract — nonempty values of at
most 3 units, reverse table inverting the forward table, reverse keys drawn
from forward values, no value a proper prefix of another, unit characters
neither whitespace nor `'<'`, glyphs non-whitespace — and for text that is a
single-space-separated sequence of nonempty in-domain words,
`detokenize (tokenize text) = text`.  The claim as stated over arbitrary
spacing fails (e.g. on `" "`) because `split()` normalises whitespace — see
the counterexample. -/
theorem C2_roundtrip_bootstrap (fm : List (Char × List Char))
    (rfm : List (List Char × Char)) (nm : Nat) (ws : List (List Char))
    (Hne : ∀ p ∈ fm, p.2 ≠ [])
    (Hlen : ∀ p ∈ fm, p.2.length ≤ 3)
    (Hrev : ∀ p ∈ fm, dictGet? rfm p.2 = some p.1)
    (Hkeys : ∀ q ∈ rfm, ∃ p ∈ fm, p.2 = q.1)
    (Hpre : ∀ p ∈ fm, ∀ p' ∈ fm, p.2.isPrefixOf p'.2 = true → p.2 = p'.2)
    (Hu : ∀ p ∈ fm, ∀ u ∈ p.2, u.isWhitespace = false ∧ u ≠ '<')
    (Hg : ∀ p ∈ fm, (p.1).isWhitespace = false)
    (Hws : ∀ w ∈ ws, w ≠ [] ∧ ∀ c ∈ w, (dictGet? fm c).isSome = true) :
    detokenize rfm
      (tokenize fm (AmharicTokenizer.init fm nm) (joinSpace ws))
      = joinSpace ws := by
  have hwords : ∀ w ∈ ws, w ≠ [] ∧ ∀ c ∈ w, c.isWhitespace = false := by
    intro w hw
    refine ⟨(Hws w hw).1, fun c hc => ?_⟩
    obtain ⟨us, hus⟩ := Option.isSome_iff_exists.mp ((Hws w hw).2 c hc)
    exact Hg _ (dictGet?_mem hus)
  have htok : tokenize fm (AmharicTokenizer.init fm nm) (joinSpace ws)
      = ((ws.map (preprocessWord fm)).flatten : List Tok) := by
    unfold tokenize tokenizeFinal
    rw [init_merge_rank_map, tokenizeLoop_nil_mm]
    unfold preprocess
    rw [splitWs_joinSpace ws hwords]
  rw [htok]
  unfold detokenize
  rw [stream_of_words]
  have hunits : ∀ u ∈ ws.map (unitsOf fm),
      u ≠ [] ∧ (∀ x ∈ u, x.isWhitespace = false) ∧ ∀ x ∈ u, x ≠ '<' := by
    intro u hu
    rcases List.mem_map.mp hu with ⟨w, hw, rfl⟩
    refine ⟨?_, ?_, ?_⟩
    · have hne := (Hws w hw).1
      have h1 := unitsOf_length_ge Hne w (Hws w hw).2
      intro hnil
      rw [hnil] at h1
      simp only [List.length_nil, Nat.le_zero] at h1
      exact hne (List.length_eq_zero.mp h1)
    · intro x hx
      obtain ⟨p, hp, hxp⟩ := mem_unitsOf_table (Hws w hw).2 hx
      exact (Hu p hp x hxp).1
    · intro x hx
      obtain ⟨p, hp, hxp⟩ := mem_unitsOf_table (Hws w hw).2 hx
      exact (Hu p hp x hxp).2
  rw [replaceEow_stream _ (fun u hu x hx => (hunits u hu).2.2 x hx)]
  rw [splitWs_trailing _ (fun u hu => ⟨(hunits u hu).1, (hunits u hu).2.1⟩)]
  rw [List.map_map]
  refine congrArg joinSpace (map_id_of_mem ?_)
  intro w hw
  exact reconWord_units Hne Hlen Hrev Hkeys Hpre w (Hws w hw).2

/-- Counterexample to C2 as stated: the text `" "` consists solely of
characters of the table's domain plus spaces, yet the bootstrap-only
round-trip returns `""` — `split()` discards the whitespace, so irregular
spacing is not reconstructed. -/
theorem C2_counterexample :
    detokenize rfmWitness
      (tokenize fmWitness (AmharicTokenizer.init fmWitness 0) [' ']) ≠ [' '] := by
  decide

/-- Witness for the amended C2 at concrete inputs: the text `"AB B"` over
the concrete table round-trips exactly. -/
theorem C2_witness :
    (∀ w ∈ [['A', 'B'], ['B']], w ≠ [] ∧
      ∀ c ∈ w, (dictGet? fmWitness c).isSome = true) ∧
    detokenize rfmWitness
      (tokenize fmWitness (AmharicTokenizer.init fmWitness 0)
        (joinSpace [['A', 'B'], ['B']]))
      = joinSpace [['A', 'B'], ['B']] :=
  ⟨by decide, C2_roundtrip_bootstrap fmWitness rfmWitness 0 [['A', 'B'], ['B']]
    (by decide) (by decide) (by decide) (by decide) (by decide) (by decide)
    (by decide) (by decide)⟩
